import Mathlib

/-!
# DictionaryDash: a verified shallow embedding

This file embeds `src/DictionaryDash.py` in Lean 4 and proves the specified
properties of its word-ladder search.

Modelling conventions:
* a Python string is modelled as a `List Char` (`Word`);
* Python's opaque numeric `hash` applied to a masked word is modelled by the
  masked word itself (an injective key); the code re-verifies every candidate
  with `legalTransformation`, and the membership lemmas below only use that
  every word is filed under each of its own masks, so nothing proved here
  depends on injectivity of the key;
* a Python `set` is modelled as a duplicate-free list (`List.dedup`, and
  insertion that skips elements already present);
* `raise ValueError` in `OrganisedDictionary.__init__` is modelled by
  `Except Unit`;
* the unbounded `while not self.__finished` loop of
  `getShortestTransformationSequence` is modelled by a fuelled iteration
  `runSearch` with fuel `|words| + 1`; the theorem `runSearch_terminates`
  below proves this fuel always suffices (the state is `finished`), and
  `runSearch_stable` shows the result does not change with more fuel, so the
  fuelled function computes exactly what the Python loop computes whenever
  the Python code returns.
-/

/-- A word: an immutable sequence of characters (Python string). -/
abbrev Word := List Char

/-- The inner loop of `legalTransformation`: walks both words in lockstep,
tracking whether a mismatched letter was already found (`foundMissmatch` in
the source); a second mismatch returns `False` at once, and exhausting the
words returns the flag. Words of different lengths cannot reach the
all-empty case and yield `false`. -/
def legalLoop : List Char → List Char → Bool → Bool
  | [], [], foundMissmatch => foundMissmatch
  | c1 :: r1, c2 :: r2, foundMissmatch =>
    if c1 ≠ c2 then
      (if foundMissmatch then false else legalLoop r1 r2 true)
    else legalLoop r1 r2 foundMissmatch
  | _, _, _ => false

/-- Source `legalTransformation(word1, word2)`: words must have the
same non-zero length and differ in exactly one letter. -/
def legalTransformation (word1 word2 : Word) : Bool :=
  if word1.length ≠ word2.length ∨ word1.length < 1 then false
  else legalLoop word1 word2 false

/-- Number of positions where the two words disagree (scaffolding used to
characterise `legalLoop`). -/
def diffCount : List Char → List Char → Nat
  | c1 :: r1, c2 :: r2 => (if c1 = c2 then 0 else 1) + diffCount r1 r2
  | _, _ => 0

/-- The spec-side reading of a legal transform: equal non-zero length and
exactly one differing character position. -/
def differsInExactlyOne (w1 w2 : Word) : Prop :=
  w1.length = w2.length ∧ 0 < w1.length ∧
    ∃ i, i < w1.length ∧ w1.get? i ≠ w2.get? i ∧
      ∀ j, j < w1.length → j ≠ i → w1.get? j = w2.get? j

/-- Source expression `word[:idx] + '_' + word[idx+1:]` of `__getAllWordHashNumbers`: the
masked pattern of `word` at position `idx`. -/
def maskWord (word : Word) (idx : Nat) : Word :=
  word.take idx ++ '_' :: word.drop (idx + 1)

/-- Source `__getAllWordHashNumbers`: one key per letter position (Python hashes the
masked string; the masked string itself serves as the key here). -/
def getAllWordHashNumbers (word : Word) : List Word :=
  (List.range word.length).map (fun idx => maskWord word idx)

/-- Source `self.__hashedWords.setdefault(hashNumber, set()).add(word)`: insert
`w` into the bucket of `key`, creating the bucket if needed and skipping the
insertion when `w` is already present (Python set add). -/
def insertHash (m : List (Word × List Word)) (key w : Word) :
    List (Word × List Word) :=
  match m with
  | [] => [(key, [w])]
  | (k, b) :: rest =>
    if k = key then (k, if w ∈ b then b else b ++ [w]) :: rest
    else (k, b) :: insertHash rest key w

/-- The inner loop of `OrganisedDictionary.__init__` for one word: file the
word under every one of its masked keys. -/
def addWordHashes (m : List (Word × List Word)) (word : Word) :
    List (Word × List Word) :=
  (getAllWordHashNumbers word).foldl (fun m' k => insertHash m' k word) m

/-- The bucket map built by `OrganisedDictionary.__init__` (without the
length validation, which `OrganisedDictionary.init` layers on top). -/
def buildMap (words : List Word) : List (Word × List Word) :=
  words.foldl addWordHashes []

/-- The organised dictionary: the word list and the pattern-keyed buckets. -/
structure OrganisedDict where
  words : List Word
  hashedWords : List (Word × List Word)
deriving DecidableEq

/-- Successful construction over `words`. -/
def buildOD (words : List Word) : OrganisedDict :=
  ⟨words, buildMap words⟩

/-- Source `OrganisedDictionary.__init__`: an empty dictionary returns at once with
an empty map; otherwise every word's length is checked against the length of
the first word, `raise ValueError` (modelled `Except.error ()`) on a
mismatch, and the bucket map is built. -/
def OrganisedDictionary.init : List Word → Except Unit OrganisedDict
  | [] => Except.ok (buildOD [])
  | w0 :: rest =>
    if (w0 :: rest).all (fun w => w.length = w0.length) then
      Except.ok (buildOD (w0 :: rest))
    else Except.error ()

/-- Source `self.__hashedWords[hashNumber]`: bucket lookup. A missing key raises
`KeyError` in Python; it is only ever queried at keys of a word filed in the
map, where the bucket exists, so the `[]` default is never observed under
the code's precondition. -/
def lookupHash : List (Word × List Word) → Word → List Word
  | [], _ => []
  | (k, b) :: rest, key => if k = key then b else lookupHash rest key

/-- The `matchingWords.update(...)` loop of `getTransformableWords`: union of
the buckets of all keys, as a list (deduplicated afterwards, modelling the
Python set). -/
def unionBuckets (m : List (Word × List Word)) (keys : List Word) :
    List Word :=
  keys.foldl (fun acc k => acc ++ lookupHash m k) []

/-- Source `OrganisedDictionary.getTransformableWords`: union the buckets of the
word's masked keys, remove the word itself, and keep only candidates that
pass `legalTransformation` (the mandatory re-check against key collisions).
The Python `assert word in self.__words` is a precondition carried as a
hypothesis by the theorems about this function. -/
def getTransformableWords (od : OrganisedDict) (word : Word) : List Word :=
  let hashNumbers := getAllWordHashNumbers word
  let matchingWords := ((unionBuckets od.hashedWords hashNumbers).dedup).erase word
  matchingWords.filter (fun matchWord => legalTransformation word matchWord)

/-- A `SearchPath` is its list of words (`self.__words` of the Python class);
`addWord` is list append, `makeCopy` is value copy (implicit here). -/
abbrev SearchPath := List Word

/-- Source `SearchPath.lastWord` (`self.__words[-1]`); paths are never empty while
the search runs, so the default is never observed. -/
def lastWord (p : SearchPath) : Word := p.getLastD []

/-- Source `SearchPath.numTransformations`: one less than the number of words. -/
def numTransformations (p : SearchPath) : Int := (p.length : Int) - 1

/-- The mutable query-session state of `DictionaryDash`. -/
structure DashState where
  targetWord : Word
  reachedWords : List Word
  searchPaths : List SearchPath
  successfulPath : Option SearchPath
  finished : Bool
deriving DecidableEq

/-- The outcome of one `__extendPaths` round: final `self.__reachedWords`,
the freshly built local `searchPaths` list, and the winner if the loop broke
out on finding the target. -/
structure RoundResult where
  reached : List Word
  newPaths : List SearchPath
  winner : Option SearchPath
deriving DecidableEq

/-- The `for searchPath in self.__searchPaths` loop of `__extendPaths`.
For each path: compute the transformable words of its last word, drop the
already-reached ones; an empty remainder drops the path; if the target is
among them the loop breaks with the winner `searchPath + [target]`;
otherwise the last candidate (`validNextWords.pop()`) extends the path in
place — so the extended path sits in the new list before its sibling
copies — every other candidate extends a fresh copy, and all candidates are
appended to the reached words (siblings first, then the popped word, which
is exactly `validNextWords` in order). -/
def extendLoop (od : OrganisedDict) (target : Word) :
    List SearchPath → List Word → List SearchPath → RoundResult
  | [], reached, acc => ⟨reached, acc, none⟩
  | p :: rest, reached, acc =>
    let nextWords := getTransformableWords od (lastWord p)
    let validNextWords := nextWords.filter (fun w => decide (w ∉ reached))
    if validNextWords.isEmpty then
      extendLoop od target rest reached acc
    else if target ∈ validNextWords then
      ⟨reached, acc, some (p ++ [target])⟩
    else
      extendLoop od target rest (reached ++ validNextWords)
        (acc ++ (p ++ [validNextWords.getLastD []]) ::
          validNextWords.dropLast.map (fun w => p ++ [w]))

/-- Source `DictionaryDash.__extendPaths`: run the loop over the current paths and
commit the new state; on success record the winner and finish, otherwise
finish exactly when no unfinished path remains. -/
def extendPaths (od : OrganisedDict) (s : DashState) : DashState :=
  let r := extendLoop od s.targetWord s.searchPaths s.reachedWords []
  match r.winner with
  | some p =>
    { s with reachedWords := r.reached, searchPaths := r.newPaths,
             successfulPath := some p, finished := true }
  | none =>
    { s with reachedWords := r.reached, searchPaths := r.newPaths,
             finished := s.finished || r.newPaths.isEmpty }

/-- The `while not self.__finished: self.__extendPaths()` loop, fuelled. -/
def runSearch (od : OrganisedDict) : Nat → DashState → DashState
  | 0, s => s
  | n + 1, s => if s.finished then s else runSearch od n (extendPaths od s)

/-- The session state set up at the top of
`getShortestTransformationSequence`: target, the start word already reached,
one seed path holding the start word, no winner, not finished. -/
def initState (startWord endWord : Word) : DashState :=
  { targetWord := endWord, reachedWords := [startWord],
    searchPaths := [[startWord]], successfulPath := none, finished := false }

/-- Source `DictionaryDash.getShortestTransformationSequence` on an organised
dictionary (the one its constructor built): iterate `__extendPaths` until
finished and return the successful path, `none` on exhaustion. Fuel
`|words| + 1` provably suffices (`runSearch_terminates`). -/
def getShortestTransformationSequence (od : OrganisedDict)
    (startWord endWord : Word) : Option SearchPath :=
  (runSearch od (od.words.length + 1) (initState startWord endWord)).successfulPath

/-- The dictionary after the two membership checks at the top of
`lengthOfShortestTransform`: append `startWord` if missing, then append
`endWord` if still missing. This value models the in-place mutation of the
caller's list. -/
def augmentDictionary (dictionary : List Word) (startWord endWord : Word) :
    List Word :=
  let d1 := if startWord ∈ dictionary then dictionary
            else dictionary ++ [startWord]
  if endWord ∈ d1 then d1 else d1 ++ [endWord]

/-- Source `lengthOfShortestTransform`: augment the dictionary, build the
`DictionaryDash` (whose `OrganisedDictionary` construction can raise on
mixed word lengths, hence `Except`), run the search, and return `-1` on no
path, else the number of transformations of the found path. -/
def lengthOfShortestTransform (startWord endWord : Word)
    (dictionary : List Word) : Except Unit Int :=
  let dictionary := augmentDictionary dictionary startWord endWord
  match OrganisedDictionary.init dictionary with
  | Except.error e => Except.error e
  | Except.ok od =>
    match getShortestTransformationSequence od startWord endWord with
    | none => Except.ok (-1)
    | some searchPath => Except.ok (numTransformations searchPath)

/-- A word ladder (the spec's transformation sequence) inside `dict` from
`s` to `e`: non-empty, starts at `s`, ends at `e`, every word a dictionary
member, consecutive words one legal transform apart. -/
def IsLadder (dict : List Word) (s e : Word) (l : List Word) : Prop :=
  l ≠ [] ∧ l.head? = some s ∧ l.getLast? = some e ∧ (∀ w ∈ l, w ∈ dict) ∧
    List.Chain' (fun a b => legalTransformation a b = true) l

/-- Word `e` is reachable from `s` in exactly `n` legal transforms through words
of `dict` (step-indexed reachability; equivalent to the existence of a
ladder of `n + 1` words, see `reachN_iff_ladder`). -/
inductive ReachN (dict : List Word) (s : Word) : Word → Nat → Prop
  | refl : s ∈ dict → ReachN dict s s 0
  | step {u w : Word} {n : Nat} : ReachN dict s u n →
      legalTransformation u w = true → w ∈ dict → ReachN dict s w (n + 1)

deriving instance DecidableEq for Except

/-- Boolean mirror of `List.Chain'` for the legal-transform relation, to
make `IsLadder` decidable on concrete inputs. -/
def chainB : List Word → Bool
  | a :: b :: l => legalTransformation a b && chainB (b :: l)
  | _ => true

/-- Boolean mirror of `IsLadder`. -/
def ladderB (dict : List Word) (s e : Word) (l : List Word) : Bool :=
  !l.isEmpty && l.head? == some s && l.getLast? == some e &&
    l.all (fun w => decide (w ∈ dict)) && chainB l

/-- Word `w` is at distance exactly `k` from `s`: reachable in `k` steps and in no
fewer. -/
def distIs (dict : List Word) (s w : Word) (k : Nat) : Prop :=
  ReachN dict s w k ∧ ∀ j, j < k → ¬ ReachN dict s w j

/-- The state facts that drive termination: the reached words are distinct
and drawn from the dictionary (or are the start word). -/
def TInv (ws : List Word) (start : Word) (s : DashState) : Prop :=
  s.reachedWords.Nodup ∧ ∀ w ∈ s.reachedWords, w = start ∨ w ∈ ws

/-- The breadth-first-search invariant after `k` completed rounds of
`__extendPaths` with no success so far: all live paths are ladders of
exactly `k` transformations from the start word, the reached words are
exactly the words at distance at most `k` (except the target, which is never
marked reached), every word at distance exactly `k` is the endpoint of some
live path, and the target is not reachable within `k` transformations. -/
structure BfsInv (ws : List Word) (start target : Word) (k : Nat)
    (s : DashState) : Prop where
  target_eq : s.targetWord = target
  not_finished : s.finished = false
  no_success : s.successfulPath = none
  paths_ne : s.searchPaths ≠ []
  paths_spec : ∀ p ∈ s.searchPaths,
    IsLadder ws start (lastWord p) p ∧ p.length = k + 1
  reached_nodup : s.reachedWords.Nodup
  reached_src : ∀ w ∈ s.reachedWords, w = start ∨ w ∈ ws
  reached_reach : ∀ w ∈ s.reachedWords, ∃ j, j ≤ k ∧ ReachN ws start w j
  reached_complete : ∀ w j, j ≤ k → ReachN ws start w j → w ≠ target →
    w ∈ s.reachedWords
  frontier : ∀ w, distIs ws start w k → w ≠ target →
    ∃ p ∈ s.searchPaths, lastWord p = w
  target_far : ∀ j, j ≤ k → ¬ ReachN ws start target j

/-! ## Concrete example data -/

def hot : Word := ['h', 'o', 't']

def dot : Word := ['d', 'o', 't']

def dog : Word := ['d', 'o', 'g']

def lot : Word := ['l', 'o', 't']

def log : Word := ['l', 'o', 'g']

def cog : Word := ['c', 'o', 'g']

def xyz : Word := ['x', 'y', 'z']

def dictSix : List Word := [hot, dot, dog, lot, log, cog]

def dictFour : List Word := [hot, dot, dog, xyz]

theorem chain'_iff_chainB (l : List Word) :
    List.Chain' (fun a b => legalTransformation a b = true) l ↔ chainB l = true := by
  match l with
  | [] => simp [chainB]
  | [a] => simp [chainB]
  | a :: b :: l =>
    rw [List.chain'_cons, chainB, Bool.and_eq_true, chain'_iff_chainB (b :: l)]

theorem isLadder_iff_ladderB (dict : List Word) (s e : Word) (l : List Word) :
    IsLadder dict s e l ↔ ladderB dict s e l = true := by
  unfold IsLadder ladderB
  simp [chain'_iff_chainB, List.isEmpty_iff, and_assoc]

/-! ## The legal-transform predicate -/

theorem diffCount_self (l : List Char) : diffCount l l = 0 := by
  induction l with
  | nil => simp [diffCount]
  | cons c r ih => simp [diffCount, ih]

theorem diffCount_comm (l1 l2 : List Char) : diffCount l1 l2 = diffCount l2 l1 := by
  induction l1 generalizing l2 with
  | nil => cases l2 <;> simp [diffCount]
  | cons c1 r1 ih =>
    cases l2 with
    | nil => simp [diffCount]
    | cons c2 r2 => simp [diffCount, ih r2, eq_comm]

theorem diffCount_eq_zero_iff (l1 l2 : List Char) (h : l1.length = l2.length) :
    diffCount l1 l2 = 0 ↔ l1 = l2 := by
  induction l1 generalizing l2 with
  | nil => cases l2 <;> simp_all [diffCount]
  | cons c1 r1 ih =>
    cases l2 with
    | nil => simp at h
    | cons c2 r2 =>
      simp only [List.length_cons, Nat.succ_inj] at h
      by_cases hc : c1 = c2
      · simp [diffCount, hc, ih r2 h]
      · simp [diffCount, hc]

theorem legalLoop_eq_true_iff (l1 l2 : List Char) (b : Bool) :
    legalLoop l1 l2 b = true ↔
      l1.length = l2.length ∧ diffCount l1 l2 + b.toNat = 1 := by
  induction l1 generalizing l2 b with
  | nil =>
    cases l2 with
    | nil => cases b <;> simp [legalLoop, diffCount]
    | cons c2 r2 => simp [legalLoop]
  | cons c1 r1 ih =>
    cases l2 with
    | nil => simp [legalLoop]
    | cons c2 r2 =>
      by_cases hc : c1 = c2
      · have hstep : legalLoop (c1 :: r1) (c2 :: r2) b = legalLoop r1 r2 b := by
          simp [legalLoop, hc]
        rw [hstep, ih]
        simp only [List.length_cons, Nat.succ_inj, diffCount, if_pos hc, Nat.zero_add]
      · cases b with
        | true =>
          have hstep : legalLoop (c1 :: r1) (c2 :: r2) true = false := by
            simp [legalLoop, hc]
          rw [hstep]
          simp only [Bool.false_eq_true, false_iff, not_and, diffCount, if_neg hc]
          intro _
          simp only [Bool.toNat_true]
          omega
        | false =>
          have hstep : legalLoop (c1 :: r1) (c2 :: r2) false = legalLoop r1 r2 true := by
            simp [legalLoop, hc]
          rw [hstep, ih]
          simp only [List.length_cons, Nat.succ_inj, diffCount, if_neg hc,
            Bool.toNat_true, Bool.toNat_false]
          constructor
          · rintro ⟨h1, h2⟩
            exact ⟨h1, by omega⟩
          · rintro ⟨h1, h2⟩
            exact ⟨h1, by omega⟩

theorem legalTransformation_eq_true_iff (w1 w2 : Word) :
    legalTransformation w1 w2 = true ↔
      w1.length = w2.length ∧ 0 < w1.length ∧ diffCount w1 w2 = 1 := by
  unfold legalTransformation
  by_cases h : w1.length ≠ w2.length ∨ w1.length < 1
  · rw [if_pos h]
    simp only [Bool.false_eq_true, false_iff]
    rintro ⟨h1, h2, -⟩
    rcases h with h | h
    · exact h h1
    · omega
  · rw [if_neg h, legalLoop_eq_true_iff]
    push_neg at h
    simp only [Bool.toNat_false, Nat.add_zero]
    constructor
    · rintro ⟨h1, h2⟩
      exact ⟨h1, by omega, h2⟩
    · rintro ⟨h1, -, h3⟩
      exact ⟨h1, h3⟩

theorem legalTransformation_symm (w1 w2 : Word) :
    legalTransformation w1 w2 = legalTransformation w2 w1 := by
  by_cases h1 : legalTransformation w1 w2 = true
  · have h2 := (legalTransformation_eq_true_iff w1 w2).mp h1
    rw [h1, eq_comm]
    exact (legalTransformation_eq_true_iff w2 w1).mpr
      ⟨h2.1.symm, by omega, by rw [diffCount_comm]; exact h2.2.2⟩
  · rw [Bool.eq_false_iff.mpr h1, eq_comm, Bool.eq_false_iff]
    intro h2
    have h3 := (legalTransformation_eq_true_iff w2 w1).mp h2
    exact h1 ((legalTransformation_eq_true_iff w1 w2).mpr
      ⟨h3.1.symm, by omega, by rw [diffCount_comm]; exact h3.2.2⟩)

theorem legalTransformation_irrefl (w : Word) :
    legalTransformation w w = false := by
  rw [Bool.eq_false_iff]
  intro h
  have h2 := (legalTransformation_eq_true_iff w w).mp h
  rw [diffCount_self] at h2
  omega

theorem ne_of_legalTransformation {w1 w2 : Word}
    (h : legalTransformation w1 w2 = true) : w1 ≠ w2 := by
  intro heq
  rw [heq, legalTransformation_irrefl] at h
  exact Bool.false_ne_true h

theorem diffCount_eq_one_iff (l1 l2 : List Char) (h : l1.length = l2.length) :
    diffCount l1 l2 = 1 ↔
      ∃ i, i < l1.length ∧ l1.get? i ≠ l2.get? i ∧
        ∀ j, j < l1.length → j ≠ i → l1.get? j = l2.get? j := by
  induction l1 generalizing l2 with
  | nil =>
    cases l2 with
    | nil => simp [diffCount]
    | cons c2 r2 => simp at h
  | cons c1 r1 ih =>
    cases l2 with
    | nil => simp at h
    | cons c2 r2 =>
      simp only [List.length_cons, Nat.succ_inj] at h
      by_cases hc : c1 = c2
      · rw [diffCount, if_pos hc, Nat.zero_add, ih r2 h]
        constructor
        · rintro ⟨i, hi, hne, hagree⟩
          refine ⟨i + 1, by simpa using hi, by simpa using hne, ?_⟩
          intro j hj hji
          cases j with
          | zero => simp [hc]
          | succ j' =>
            have := hagree j' (by simpa using hj) (fun hh => hji (by rw [hh]))
            simpa using this
        · rintro ⟨i, hi, hne, hagree⟩
          cases i with
          | zero => simp [hc] at hne
          | succ i' =>
            refine ⟨i', by simpa using hi, by simpa using hne, ?_⟩
            intro j hj hji
            have := hagree (j + 1) (by simpa using hj)
              (fun hh => hji (by omega))
            simpa using this
      · rw [diffCount, if_neg hc]
        constructor
        · intro hd
          have hz : diffCount r1 r2 = 0 := by omega
          have hr : r1 = r2 := (diffCount_eq_zero_iff r1 r2 h).mp hz
          refine ⟨0, by simp, by simpa using hc, ?_⟩
          intro j hj hj0
          cases j with
          | zero => exact absurd rfl hj0
          | succ j' => simp [hr]
        · rintro ⟨i, hi, hne, hagree⟩
          cases i with
          | zero =>
            have hr : r1 = r2 := by
              apply List.ext_get?
              intro n
              by_cases hn : n < r1.length
              · have := hagree (n + 1) (by simpa using hn) (by omega)
                simpa using this
              · rw [List.get?_eq_none.mpr (by omega),
                  List.get?_eq_none.mpr (by omega)]
            rw [hr, diffCount_self]
          | succ i' =>
            have h0 := hagree 0 (by simp) (by omega)
            simp [hc] at h0

theorem maskWord_cons_succ (c : Char) (r : List Char) (i : Nat) :
    maskWord (c :: r) (i + 1) = c :: maskWord r i := by
  simp [maskWord]

theorem exists_maskWord_eq_of_diffCount (l1 l2 : List Char)
    (h : l1.length = l2.length) (hd : diffCount l1 l2 = 1) :
    ∃ i, i < l1.length ∧ maskWord l1 i = maskWord l2 i := by
  induction l1 generalizing l2 with
  | nil => simp [diffCount] at hd
  | cons c1 r1 ih =>
    cases l2 with
    | nil => simp at h
    | cons c2 r2 =>
      simp only [List.length_cons, Nat.succ_inj] at h
      by_cases hc : c1 = c2
      · rw [diffCount, if_pos hc, Nat.zero_add] at hd
        obtain ⟨i, hi, hm⟩ := ih r2 h hd
        exact ⟨i + 1, by simpa using hi,
          by rw [maskWord_cons_succ, maskWord_cons_succ, hm, hc]⟩
      · rw [diffCount, if_neg hc] at hd
        have hz : diffCount r1 r2 = 0 := by omega
        have hr : r1 = r2 := (diffCount_eq_zero_iff r1 r2 h).mp hz
        exact ⟨0, by simp, by simp [maskWord, hr]⟩

theorem exists_maskWord_eq_of_legal {w1 w2 : Word}
    (hleg : legalTransformation w1 w2 = true) :
    ∃ i, i < w1.length ∧ maskWord w1 i = maskWord w2 i := by
  obtain ⟨hlen, -, hd⟩ := (legalTransformation_eq_true_iff w1 w2).mp hleg
  exact exists_maskWord_eq_of_diffCount w1 w2 hlen hd

/-! ## The pattern index -/

theorem mem_getAllWordHashNumbers (k w : Word) :
    k ∈ getAllWordHashNumbers w ↔ ∃ i, i < w.length ∧ k = maskWord w i := by
  simp only [getAllWordHashNumbers, List.mem_map, List.mem_range]
  constructor
  · rintro ⟨i, hi, rfl⟩
    exact ⟨i, hi, rfl⟩
  · rintro ⟨i, hi, rfl⟩
    exact ⟨i, hi, rfl⟩

theorem lookupHash_cons (k : Word) (b : List Word)
    (rest : List (Word × List Word)) (key : Word) :
    lookupHash ((k, b) :: rest) key = if k = key then b else lookupHash rest key :=
  rfl

theorem mem_lookupHash_insertHash (m : List (Word × List Word))
    (key w key2 x : Word) :
    x ∈ lookupHash (insertHash m key w) key2 ↔
      x ∈ lookupHash m key2 ∨ (key2 = key ∧ x = w) := by
  induction m with
  | nil =>
    rw [show insertHash [] key w = [(key, [w])] from rfl, lookupHash_cons]
    by_cases hk : key = key2
    · subst hk
      simp [lookupHash]
    · rw [if_neg hk]
      constructor
      · intro hx
        exact Or.inl hx
      · rintro (hx | ⟨h1, -⟩)
        · exact hx
        · exact absurd h1.symm hk
  | cons kb rest ih =>
    obtain ⟨k, b⟩ := kb
    rw [show insertHash ((k, b) :: rest) key w
        = if k = key then (k, if w ∈ b then b else b ++ [w]) :: rest
          else (k, b) :: insertHash rest key w from rfl]
    by_cases hk : k = key
    · rw [if_pos hk, lookupHash_cons, lookupHash_cons]
      by_cases hk2 : k = key2
      · rw [if_pos hk2, if_pos hk2]
        have hkey : key2 = key := by rw [← hk2, hk]
        by_cases hw : w ∈ b
        · rw [if_pos hw]
          constructor
          · intro hx
            exact Or.inl hx
          · rintro (hx | ⟨-, rfl⟩)
            · exact hx
            · exact hw
        · rw [if_neg hw, List.mem_append, List.mem_singleton]
          simp [hkey]
      · rw [if_neg hk2, if_neg hk2]
        have hkey : ¬ key2 = key := by
          intro h
          exact hk2 (by rw [hk, ← h])
        simp [hkey]
    · rw [if_neg hk, lookupHash_cons, lookupHash_cons]
      by_cases hk2 : k = key2
      · rw [if_pos hk2, if_pos hk2]
        have hkey : ¬ key2 = key := by
          intro h
          exact hk (by rw [hk2, h])
        simp [hkey]
      · rw [if_neg hk2, if_neg hk2, ih]

theorem mem_lookupHash_foldl_insert (keys : List Word)
    (m : List (Word × List Word)) (v key x : Word) :
    x ∈ lookupHash (keys.foldl (fun m' k => insertHash m' k v) m) key ↔
      x ∈ lookupHash m key ∨ (x = v ∧ key ∈ keys) := by
  induction keys generalizing m with
  | nil => simp
  | cons k ks ih =>
    rw [List.foldl_cons, ih, mem_lookupHash_insertHash]
    constructor
    · rintro (⟨hm | ⟨rfl, rfl⟩⟩ | ⟨rfl, hks⟩)
      · exact Or.inl hm
      · exact Or.inr ⟨rfl, List.mem_cons_self _ _⟩
      · exact Or.inr ⟨rfl, List.mem_cons_of_mem _ hks⟩
    · rintro (hm | ⟨rfl, hmem⟩)
      · exact Or.inl (Or.inl hm)
      · rcases List.mem_cons.mp hmem with rfl | hks
        · exact Or.inl (Or.inr ⟨rfl, rfl⟩)
        · exact Or.inr ⟨rfl, hks⟩

theorem mem_lookupHash_addWordHashes (m : List (Word × List Word))
    (v key x : Word) :
    x ∈ lookupHash (addWordHashes m v) key ↔
      x ∈ lookupHash m key ∨ (x = v ∧ key ∈ getAllWordHashNumbers v) :=
  mem_lookupHash_foldl_insert (getAllWordHashNumbers v) m v key x

theorem mem_lookupHash_foldl_add (ws : List Word)
    (m : List (Word × List Word)) (key x : Word) :
    x ∈ lookupHash (ws.foldl addWordHashes m) key ↔
      x ∈ lookupHash m key ∨ (x ∈ ws ∧ key ∈ getAllWordHashNumbers x) := by
  induction ws generalizing m with
  | nil => simp
  | cons w ws ih =>
    rw [List.foldl_cons, ih, mem_lookupHash_addWordHashes]
    constructor
    · rintro (⟨hm | ⟨rfl, hkey⟩⟩ | ⟨hmem, hkey⟩)
      · exact Or.inl hm
      · exact Or.inr ⟨List.mem_cons_self _ _, hkey⟩
      · exact Or.inr ⟨List.mem_cons_of_mem _ hmem, hkey⟩
    · rintro (hm | ⟨hmem, hkey⟩)
      · exact Or.inl (Or.inl hm)
      · rcases List.mem_cons.mp hmem with rfl | hws
        · exact Or.inl (Or.inr ⟨rfl, hkey⟩)
        · exact Or.inr ⟨hws, hkey⟩

theorem mem_lookupHash_buildMap (ws : List Word) (key x : Word) :
    x ∈ lookupHash (buildMap ws) key ↔
      x ∈ ws ∧ key ∈ getAllWordHashNumbers x := by
  rw [buildMap, mem_lookupHash_foldl_add]
  simp [lookupHash]

theorem mem_unionBuckets_foldl (keys : List Word)
    (m : List (Word × List Word)) (acc : List Word) (x : Word) :
    x ∈ keys.foldl (fun a k => a ++ lookupHash m k) acc ↔
      x ∈ acc ∨ ∃ k ∈ keys, x ∈ lookupHash m k := by
  induction keys generalizing acc with
  | nil => simp
  | cons k ks ih =>
    rw [List.foldl_cons, ih]
    simp only [List.mem_append, List.mem_cons]
    constructor
    · rintro (⟨ha | hl⟩ | ⟨k', hk', hx⟩)
      · exact Or.inl ha
      · exact Or.inr ⟨k, Or.inl rfl, hl⟩
      · exact Or.inr ⟨k', Or.inr hk', hx⟩
    · rintro (ha | ⟨k', hk' | hk', hx⟩)
      · exact Or.inl (Or.inl ha)
      · exact Or.inl (Or.inr (hk' ▸ hx))
      · exact Or.inr ⟨k', hk', hx⟩

theorem mem_unionBuckets (m : List (Word × List Word)) (keys : List Word)
    (x : Word) :
    x ∈ unionBuckets m keys ↔ ∃ k ∈ keys, x ∈ lookupHash m k := by
  rw [unionBuckets, mem_unionBuckets_foldl]
  simp

theorem getTransformableWords_nodup (od : OrganisedDict) (word : Word) :
    (getTransformableWords od word).Nodup := by
  unfold getTransformableWords
  exact ((List.nodup_dedup _).erase _).filter _

theorem mem_getTransformableWords (ws : List Word) (A B : Word) :
    B ∈ getTransformableWords (buildOD ws) A ↔
      B ∈ ws ∧ legalTransformation A B = true := by
  unfold getTransformableWords
  rw [List.mem_filter, (List.nodup_dedup _).mem_erase_iff, List.mem_dedup,
    mem_unionBuckets]
  constructor
  · rintro ⟨⟨hne, k, hk, hbk⟩, hleg⟩
    have := (mem_lookupHash_buildMap ws k B).mp hbk
    exact ⟨this.1, hleg⟩
  · rintro ⟨hmem, hleg⟩
    have hne : B ≠ A := (ne_of_legalTransformation hleg).symm
    obtain ⟨i, hi, hmask⟩ := exists_maskWord_eq_of_legal hleg
    have hlen : A.length = B.length :=
      ((legalTransformation_eq_true_iff A B).mp hleg).1
    refine ⟨⟨hne, maskWord A i, ?_, ?_⟩, hleg⟩
    · exact (mem_getAllWordHashNumbers _ A).mpr ⟨i, hi, rfl⟩
    · exact (mem_lookupHash_buildMap ws _ B).mpr
        ⟨hmem, (mem_getAllWordHashNumbers _ B).mpr ⟨i, by omega, hmask⟩⟩

theorem getTransformableWords_subset (ws : List Word) (A B : Word)
    (h : B ∈ getTransformableWords (buildOD ws) A) : B ∈ ws :=
  ((mem_getTransformableWords ws A B).mp h).1

theorem legal_of_getTransformableWords (ws : List Word) (A B : Word)
    (h : B ∈ getTransformableWords (buildOD ws) A) :
    legalTransformation A B = true :=
  ((mem_getTransformableWords ws A B).mp h).2

/-! ## Ladders and step-indexed reachability -/

theorem ReachN.end_mem {dict : List Word} {s w : Word} {n : Nat}
    (h : ReachN dict s w n) : w ∈ dict := by
  cases h with
  | refl hs => exact hs
  | step _ _ hw => exact hw

theorem ReachN.start_mem {dict : List Word} {s w : Word} {n : Nat}
    (h : ReachN dict s w n) : s ∈ dict := by
  induction h with
  | refl hs => exact hs
  | step _ _ _ ih => exact ih

theorem isLadder_singleton {dict : List Word} {s : Word} (hs : s ∈ dict) :
    IsLadder dict s s [s] := by
  refine ⟨by simp, rfl, rfl, by simpa using hs, by simp⟩

theorem isLadder_append {dict : List Word} {s u w : Word} {p : List Word}
    (hp : IsLadder dict s u p) (hleg : legalTransformation u w = true)
    (hw : w ∈ dict) : IsLadder dict s w (p ++ [w]) := by
  obtain ⟨hne, hhead, hlast, hmem, hchain⟩ := hp
  refine ⟨by simp, ?_, ?_, ?_, ?_⟩
  · rw [List.head?_append_of_ne_nil _ hne, hhead]
  · rw [List.getLast?_append_cons]
    rfl
  · intro x hx
    rcases List.mem_append.mp hx with hx | hx
    · exact hmem x hx
    · rw [List.mem_singleton.mp hx]
      exact hw
  · rw [List.chain'_append]
    refine ⟨hchain, by simp, ?_⟩
    intro x hx y hy
    rw [hlast, Option.mem_some_iff] at hx
    simp only [List.head?_cons, Option.mem_some_iff] at hy
    rw [← hx, ← hy]
    exact hleg

theorem reachN_of_isLadder {dict : List Word} {s : Word} :
    ∀ {l : List Word} {e : Word}, IsLadder dict s e l →
      ReachN dict s e (l.length - 1) := by
  intro l
  induction l using List.reverseRecOn with
  | nil =>
    intro e h
    exact absurd rfl h.1
  | append_singleton l' a ih =>
    intro e h
    obtain ⟨-, hhead, hlast, hmem, hchain⟩ := h
    have hae : a = e := by
      rw [List.getLast?_append_cons] at hlast
      simpa using hlast
    subst hae
    cases hl' : l' with
    | nil =>
      subst hl'
      simp only [List.nil_append, List.head?_cons, Option.some_inj] at hhead
      subst hhead
      simpa using ReachN.refl (by simp at hmem; exact hmem)
    | cons b t =>
      have hne : l' ≠ [] := by rw [hl']; simp
      rw [← hl'] at *
      obtain ⟨u, hu⟩ : ∃ u, l'.getLast? = some u := by
        cases h : l'.getLast? with
        | none => exact absurd (List.getLast?_eq_none_iff.mp h) hne
        | some u => exact ⟨u, rfl⟩
      have hchain2 := List.chain'_append.mp hchain
      have hlad : IsLadder dict s u l' := by
        refine ⟨hne, ?_, hu, ?_, hchain2.1⟩
        · rw [List.head?_append_of_ne_nil _ hne] at hhead
          exact hhead
        · intro x hx
          exact hmem x (List.mem_append.mpr (Or.inl hx))
      have hstep : legalTransformation u a = true :=
        hchain2.2.2 u hu a (by simp)
      have hr := ih hlad
      have hlen : l'.length - 1 + 1 = l'.length := by
        cases l' with
        | nil => exact absurd rfl hne
        | cons _ _ => simp
      have := ReachN.step hr hstep
        (hmem a (List.mem_append.mpr (Or.inr (by simp))))
      rw [hlen] at this
      simpa using this

theorem isLadder_of_reachN {dict : List Word} {s e : Word} {n : Nat}
    (h : ReachN dict s e n) :
    ∃ l, IsLadder dict s e l ∧ l.length = n + 1 := by
  induction h with
  | refl hs => exact ⟨[s], isLadder_singleton hs, rfl⟩
  | step _ hleg hw ih =>
    obtain ⟨l, hl, hlen⟩ := ih
    exact ⟨l ++ [_], isLadder_append hl hleg hw, by simp [hlen]⟩

theorem reachN_iff_ladder (dict : List Word) (s e : Word) (n : Nat) :
    ReachN dict s e n ↔ ∃ l, IsLadder dict s e l ∧ l.length = n + 1 := by
  constructor
  · exact isLadder_of_reachN
  · rintro ⟨l, hl, hlen⟩
    have := reachN_of_isLadder hl
    rw [hlen] at this
    simpa using this

theorem exists_ladder_iff_exists_reachN (dict : List Word) (s e : Word) :
    (∃ l, IsLadder dict s e l) ↔ ∃ n, ReachN dict s e n := by
  constructor
  · rintro ⟨l, hl⟩
    exact ⟨l.length - 1, reachN_of_isLadder hl⟩
  · rintro ⟨n, hn⟩
    obtain ⟨l, hl, -⟩ := isLadder_of_reachN hn
    exact ⟨l, hl⟩

theorem exists_distIs_of_reachN {dict : List Word} {s w : Word} :
    ∀ {n : Nat}, ReachN dict s w n → ∃ j, j ≤ n ∧ distIs dict s w j := by
  intro n
  induction n using Nat.strong_induction_on with
  | _ n ih =>
    intro h
    by_cases hmin : ∀ j, j < n → ¬ ReachN dict s w j
    · exact ⟨n, le_refl n, h, hmin⟩
    · push_neg at hmin
      obtain ⟨j, hj, hrj⟩ := hmin
      obtain ⟨j', hj', hd⟩ := ih j hj hrj
      exact ⟨j', by omega, hd⟩

theorem dropLast_append_getLastD (l : List Word) (d : Word) (h : l ≠ []) :
    l.dropLast ++ [l.getLastD d] = l := by
  induction l generalizing d with
  | nil => contradiction
  | cons a t ih =>
    cases t with
    | nil => simp
    | cons b t2 =>
      have h2 := ih (d := a) (by simp)
      rw [List.getLastD_cons] at h2
      simp only [List.dropLast_cons₂, List.cons_append, List.getLastD_cons]
      rw [h2]

theorem getLastD_mem (l : List Word) (d : Word) (h : l ≠ []) :
    l.getLastD d ∈ l := by
  have h2 := dropLast_append_getLastD l d h
  rw [← h2]
  exact List.mem_append.mpr (Or.inr (by simp))

theorem lastWord_append (p : List Word) (w : Word) :
    lastWord (p ++ [w]) = w := by
  unfold lastWord
  induction p with
  | nil => rfl
  | cons a t ih =>
    rw [List.cons_append, List.getLastD_cons]
    cases t with
    | nil => rfl
    | cons b t2 =>
      rw [List.cons_append, List.getLastD_cons] at ih ⊢
      exact ih

/-! ## The round loop `__extendPaths` -/

theorem extendLoop_nil (od : OrganisedDict) (target : Word)
    (reached : List Word) (acc : List SearchPath) :
    extendLoop od target [] reached acc = ⟨reached, acc, none⟩ := rfl

theorem extendLoop_cons (od : OrganisedDict) (target : Word) (p : SearchPath)
    (rest : List SearchPath) (reached : List Word) (acc : List SearchPath) :
    extendLoop od target (p :: rest) reached acc =
      (let validNextWords := (getTransformableWords od (lastWord p)).filter
          (fun w => decide (w ∉ reached))
       if validNextWords.isEmpty then extendLoop od target rest reached acc
       else if target ∈ validNextWords then ⟨reached, acc, some (p ++ [target])⟩
       else extendLoop od target rest (reached ++ validNextWords)
         (acc ++ (p ++ [validNextWords.getLastD []]) ::
           validNextWords.dropLast.map (fun w => p ++ [w]))) := rfl

theorem mem_validNextWords (od : OrganisedDict) (p : SearchPath)
    (reached : List Word) (w : Word) :
    w ∈ (getTransformableWords od (lastWord p)).filter
        (fun w => decide (w ∉ reached)) ↔
      w ∈ getTransformableWords od (lastWord p) ∧ w ∉ reached := by
  rw [List.mem_filter, decide_eq_true_iff]

theorem validNextWords_nodup (od : OrganisedDict) (p : SearchPath)
    (reached : List Word) :
    ((getTransformableWords od (lastWord p)).filter
      (fun w => decide (w ∉ reached))).Nodup :=
  (getTransformableWords_nodup od (lastWord p)).filter _

theorem mem_branchPaths {vN : List Word} (p : SearchPath) (q : SearchPath)
    (h : vN ≠ []) :
    q ∈ (p ++ [vN.getLastD []]) :: vN.dropLast.map (fun w => p ++ [w]) ↔
      ∃ w ∈ vN, q = p ++ [w] := by
  have hvN := dropLast_append_getLastD vN [] h
  constructor
  · intro hq
    rcases List.mem_cons.mp hq with hq | hq
    · exact ⟨vN.getLastD [], getLastD_mem vN [] h, hq⟩
    · obtain ⟨w, hw, rfl⟩ := List.mem_map.mp hq
      refine ⟨w, ?_, rfl⟩
      rw [← hvN]
      exact List.mem_append.mpr (Or.inl hw)
  · rintro ⟨w, hw, rfl⟩
    rw [← hvN] at hw
    rcases List.mem_append.mp hw with hw2 | hw2
    · exact List.mem_cons.mpr (Or.inr (List.mem_map.mpr ⟨w, hw2, rfl⟩))
    · rw [List.mem_singleton.mp hw2]
      exact List.mem_cons.mpr (Or.inl rfl)

theorem extendLoop_reached_mono (od : OrganisedDict) (target : Word)
    (ps : List SearchPath) (reached : List Word) (acc : List SearchPath)
    (w : Word) (hw : w ∈ reached) :
    w ∈ (extendLoop od target ps reached acc).reached := by
  induction ps generalizing reached acc with
  | nil => exact hw
  | cons p rest ih =>
    rw [extendLoop_cons]
    simp only
    split
    · exact ih reached acc hw
    · split
      · exact hw
      · exact ih _ _ (List.mem_append.mpr (Or.inl hw))

theorem extendLoop_acc_mono (od : OrganisedDict) (target : Word)
    (ps : List SearchPath) (reached : List Word) (acc : List SearchPath)
    (q : SearchPath) (hq : q ∈ acc) :
    q ∈ (extendLoop od target ps reached acc).newPaths := by
  induction ps generalizing reached acc with
  | nil => exact hq
  | cons p rest ih =>
    rw [extendLoop_cons]
    simp only
    split
    · exact ih reached acc hq
    · split
      · exact hq
      · exact ih _ _ (List.mem_append.mpr (Or.inl hq))

theorem extendLoop_count (od : OrganisedDict) (target : Word)
    (ps : List SearchPath) (reached : List Word) (acc : List SearchPath)
    (hnone : (extendLoop od target ps reached acc).winner = none) :
    (extendLoop od target ps reached acc).reached.length + acc.length =
      reached.length + (extendLoop od target ps reached acc).newPaths.length := by
  induction ps generalizing reached acc with
  | nil => rw [extendLoop_nil]
  | cons p rest ih =>
    rw [extendLoop_cons] at hnone ⊢
    simp only at hnone ⊢
    by_cases hempty : ((getTransformableWords od (lastWord p)).filter
        (fun w => decide (w ∉ reached))).isEmpty = true
    · rw [if_pos hempty] at hnone ⊢
      exact ih reached acc hnone
    · rw [if_neg hempty] at hnone ⊢
      by_cases htgt : target ∈ (getTransformableWords od (lastWord p)).filter
          (fun w => decide (w ∉ reached))
      · rw [if_pos htgt] at hnone
        simp at hnone
      · rw [if_neg htgt] at hnone ⊢
        have h2 := ih _ _ hnone
        have hvne : (getTransformableWords od (lastWord p)).filter
            (fun w => decide (w ∉ reached)) ≠ [] := by
          intro hh
          rw [hh] at hempty
          simp at hempty
        have hlen : 1 ≤ ((getTransformableWords od (lastWord p)).filter
            (fun w => decide (w ∉ reached))).length := by
          cases hl : (getTransformableWords od (lastWord p)).filter
              (fun w => decide (w ∉ reached)) with
          | nil => exact absurd hl hvne
          | cons _ _ => simp
        simp only [List.length_append, List.length_cons, List.length_map,
          List.length_dropLast] at h2 ⊢
        omega

theorem extendLoop_reached_nodup (od : OrganisedDict) (target : Word)
    (ps : List SearchPath) (reached : List Word) (acc : List SearchPath)
    (hnd : reached.Nodup) :
    (extendLoop od target ps reached acc).reached.Nodup := by
  induction ps generalizing reached acc with
  | nil => exact hnd
  | cons p rest ih =>
    rw [extendLoop_cons]
    simp only
    split
    · exact ih reached acc hnd
    · split
      · exact hnd
      · refine ih _ _ (hnd.append (validNextWords_nodup od p reached) ?_)
        intro a ha hav
        exact ((mem_validNextWords od p reached a).mp hav).2 ha

theorem extendLoop_reached_src (od : OrganisedDict) (target : Word)
    (ps : List SearchPath) (reached : List Word) (acc : List SearchPath)
    (w : Word) (hw : w ∈ (extendLoop od target ps reached acc).reached) :
    w ∈ reached ∨ ∃ p ∈ ps, w ∈ getTransformableWords od (lastWord p) := by
  induction ps generalizing reached acc with
  | nil => exact Or.inl hw
  | cons p rest ih =>
    rw [extendLoop_cons] at hw
    simp only at hw
    split at hw
    · rcases ih reached acc hw with h | ⟨p', hp', hw'⟩
      · exact Or.inl h
      · exact Or.inr ⟨p', List.mem_cons_of_mem _ hp', hw'⟩
    · split at hw
      · exact Or.inl hw
      · rcases ih _ _ hw with h | ⟨p', hp', hw'⟩
        · rcases List.mem_append.mp h with h2 | h2
          · exact Or.inl h2
          · exact Or.inr ⟨p, List.mem_cons_self _ _,
              ((mem_validNextWords od p reached w).mp h2).1⟩
        · exact Or.inr ⟨p', List.mem_cons_of_mem _ hp', hw'⟩

theorem extendLoop_newPaths_src (od : OrganisedDict) (target : Word)
    (ps : List SearchPath) (reached : List Word) (acc : List SearchPath)
    (q : SearchPath)
    (hq : q ∈ (extendLoop od target ps reached acc).newPaths) :
    q ∈ acc ∨ ∃ p ∈ ps, ∃ w, w ∈ getTransformableWords od (lastWord p) ∧
      q = p ++ [w] := by
  induction ps generalizing reached acc with
  | nil => exact Or.inl hq
  | cons p rest ih =>
    rw [extendLoop_cons] at hq
    simp only at hq
    split at hq
    · rcases ih reached acc hq with h | ⟨p', hp', hw'⟩
      · exact Or.inl h
      · exact Or.inr ⟨p', List.mem_cons_of_mem _ hp', hw'⟩
    · split at hq
      · exact Or.inl hq
      · rename_i hne htgt
        have hvne : (getTransformableWords od (lastWord p)).filter
            (fun w => decide (w ∉ reached)) ≠ [] := by
          intro hh
          rw [hh] at hne
          simp at hne
        rcases ih _ _ hq with h | ⟨p', hp', hw'⟩
        · rcases List.mem_append.mp h with h2 | h2
          · exact Or.inl h2
          · obtain ⟨w, hw, rfl⟩ := (mem_branchPaths p q hvne).mp h2
            exact Or.inr ⟨p, List.mem_cons_self _ _, w,
              ((mem_validNextWords od p reached w).mp hw).1, rfl⟩
        · exact Or.inr ⟨p', List.mem_cons_of_mem _ hp', hw'⟩

theorem extendLoop_winner_shape (od : OrganisedDict) (target : Word)
    (ps : List SearchPath) (reached : List Word) (acc : List SearchPath)
    (q : SearchPath)
    (hq : (extendLoop od target ps reached acc).winner = some q) :
    ∃ p ∈ ps, q = p ++ [target] ∧
      target ∈ getTransformableWords od (lastWord p) ∧ target ∉ reached := by
  induction ps generalizing reached acc with
  | nil => simp [extendLoop_nil] at hq
  | cons p rest ih =>
    rw [extendLoop_cons] at hq
    simp only at hq
    split at hq
    · obtain ⟨p', hp', hq', ht, hr⟩ := ih reached acc hq
      exact ⟨p', List.mem_cons_of_mem _ hp', hq', ht, hr⟩
    · split at hq
      · rename_i hne htgt
        simp only [Option.some_inj] at hq
        have := (mem_validNextWords od p reached target).mp htgt
        exact ⟨p, List.mem_cons_self _ _, hq.symm, this.1, this.2⟩
      · obtain ⟨p', hp', hq', ht, hr⟩ := ih _ _ hq
        refine ⟨p', List.mem_cons_of_mem _ hp', hq', ht, ?_⟩
        intro hmem
        exact hr (List.mem_append.mpr (Or.inl hmem))

theorem extendLoop_complete (od : OrganisedDict) (target : Word)
    (ps : List SearchPath) (reached : List Word) (acc : List SearchPath)
    (hnone : (extendLoop od target ps reached acc).winner = none)
    (p : SearchPath) (hp : p ∈ ps) (w : Word)
    (hw : w ∈ getTransformableWords od (lastWord p)) (hwr : w ∉ reached) :
    (∃ q ∈ (extendLoop od target ps reached acc).newPaths, lastWord q = w) ∧
      w ∈ (extendLoop od target ps reached acc).reached := by
  induction ps generalizing reached acc with
  | nil => exact absurd hp (List.not_mem_nil p)
  | cons p0 rest ih =>
    rw [extendLoop_cons] at hnone ⊢
    simp only at hnone ⊢
    by_cases hempty : ((getTransformableWords od (lastWord p0)).filter
        (fun x => decide (x ∉ reached))).isEmpty = true
    · rw [if_pos hempty] at hnone ⊢
      rcases List.mem_cons.mp hp with rfl | hp2
      · exfalso
        have hmem : w ∈ (getTransformableWords od (lastWord p)).filter
            (fun x => decide (x ∉ reached)) :=
          (mem_validNextWords od p reached w).mpr ⟨hw, hwr⟩
        rw [List.isEmpty_iff.mp hempty] at hmem
        exact List.not_mem_nil w hmem
      · exact ih reached acc hnone hp2 hwr
    · rw [if_neg hempty] at hnone ⊢
      by_cases htgt : target ∈ (getTransformableWords od (lastWord p0)).filter
          (fun x => decide (x ∉ reached))
      · rw [if_pos htgt] at hnone
        simp at hnone
      · rw [if_neg htgt] at hnone ⊢
        have hvne : (getTransformableWords od (lastWord p0)).filter
            (fun x => decide (x ∉ reached)) ≠ [] := by
          intro hh
          rw [hh] at hempty
          simp at hempty
        by_cases hwv : w ∈ (getTransformableWords od (lastWord p0)).filter
            (fun x => decide (x ∉ reached))
        · constructor
          · refine ⟨p0 ++ [w], ?_, lastWord_append p0 w⟩
            exact extendLoop_acc_mono od target rest _ _ _
              (List.mem_append.mpr (Or.inr
                ((mem_branchPaths p0 (p0 ++ [w]) hvne).mpr ⟨w, hwv, rfl⟩)))
          · exact extendLoop_reached_mono od target rest _ _ w
              (List.mem_append.mpr (Or.inr hwv))
        · rcases List.mem_cons.mp hp with rfl | hp2
          · exact absurd ((mem_validNextWords od p reached w).mpr ⟨hw, hwr⟩) hwv
          · refine ih _ _ hnone hp2 ?_
            intro hmem
            rcases List.mem_append.mp hmem with h2 | h2
            · exact hwr h2
            · exact hwv h2

theorem extendLoop_target_untouched (od : OrganisedDict) (target : Word)
    (ps : List SearchPath) (reached : List Word) (acc : List SearchPath)
    (hnone : (extendLoop od target ps reached acc).winner = none) :
    target ∈ reached ∨
      ∀ p ∈ ps, target ∉ getTransformableWords od (lastWord p) := by
  induction ps generalizing reached acc with
  | nil => exact Or.inr (fun p hp => absurd hp (List.not_mem_nil p))
  | cons p0 rest ih =>
    rw [extendLoop_cons] at hnone
    simp only at hnone
    by_cases ht : target ∈ reached
    · exact Or.inl ht
    · refine Or.inr ?_
      split at hnone
      · rename_i hempty
        intro p hp
        rcases List.mem_cons.mp hp with rfl | hp2
        · intro hmem
          have : target ∈ (getTransformableWords od (lastWord p)).filter
              (fun x => decide (x ∉ reached)) :=
            (mem_validNextWords od p reached target).mpr ⟨hmem, ht⟩
          rw [List.isEmpty_iff.mp hempty] at this
          exact List.not_mem_nil target this
        · rcases ih reached acc hnone with h | h
          · exact absurd h ht
          · exact h p hp2
      · split at hnone
        · simp at hnone
        · rename_i hne htgt
          intro p hp
          rcases List.mem_cons.mp hp with rfl | hp2
          · intro hmem
            exact htgt ((mem_validNextWords od p reached target).mpr ⟨hmem, ht⟩)
          · rcases ih _ _ hnone with h | h
            · rcases List.mem_append.mp h with h2 | h2
              · exact absurd h2 ht
              · exact absurd h2 htgt
            · exact h p hp2

theorem extendLoop_no_winner_of_target_reached (od : OrganisedDict)
    (target : Word) (ps : List SearchPath) (reached : List Word)
    (acc : List SearchPath) (ht : target ∈ reached) :
    (extendLoop od target ps reached acc).winner = none := by
  induction ps generalizing reached acc with
  | nil => rfl
  | cons p rest ih =>
    rw [extendLoop_cons]
    simp only
    split
    · exact ih reached acc ht
    · split
      · rename_i hne htgt
        exact absurd ht ((mem_validNextWords od p reached target).mp htgt).2
      · exact ih _ _ (List.mem_append.mpr (Or.inl ht))

theorem extendPaths_eq_of_winner_some (od : OrganisedDict) (s : DashState)
    (q : SearchPath)
    (h : (extendLoop od s.targetWord s.searchPaths s.reachedWords []).winner =
      some q) :
    extendPaths od s =
      { s with
        reachedWords :=
          (extendLoop od s.targetWord s.searchPaths s.reachedWords []).reached,
        searchPaths :=
          (extendLoop od s.targetWord s.searchPaths s.reachedWords []).newPaths,
        successfulPath := some q, finished := true } := by
  unfold extendPaths
  simp only
  rw [h]

theorem extendPaths_eq_of_winner_none (od : OrganisedDict) (s : DashState)
    (h : (extendLoop od s.targetWord s.searchPaths s.reachedWords []).winner =
      none) :
    extendPaths od s =
      { s with
        reachedWords :=
          (extendLoop od s.targetWord s.searchPaths s.reachedWords []).reached,
        searchPaths :=
          (extendLoop od s.targetWord s.searchPaths s.reachedWords []).newPaths,
        finished := s.finished ||
          (extendLoop od s.targetWord s.searchPaths s.reachedWords
            []).newPaths.isEmpty } := by
  unfold extendPaths
  simp only
  rw [h]

theorem reachN_zero_eq {dict : List Word} {s w : Word}
    (h : ReachN dict s w 0) : w = s := by
  cases h
  rfl

theorem reachN_succ_inv {dict : List Word} {s w : Word} {n : Nat}
    (h : ReachN dict s w (n + 1)) :
    ∃ u, ReachN dict s u n ∧ legalTransformation u w = true ∧ w ∈ dict := by
  cases h with
  | step hu hleg hw => exact ⟨_, hu, hleg, hw⟩

theorem distIs_pred {ws : List Word} {s w : Word} {k : Nat}
    (h : distIs ws s w (k + 1)) :
    ∃ u, distIs ws s u k ∧ legalTransformation u w = true ∧ w ∈ ws := by
  obtain ⟨hr, hmin⟩ := h
  obtain ⟨u, hu, hleg, hw⟩ := reachN_succ_inv hr
  obtain ⟨j, hj, hd⟩ := exists_distIs_of_reachN hu
  have hjk : j = k := by
    by_contra hne
    exact hmin (j + 1) (by omega) (ReachN.step hd.1 hleg hw)
  subst hjk
  exact ⟨u, hd, hleg, hw⟩

theorem lastWord_singleton (w : Word) : lastWord [w] = w := rfl

theorem inv_init (ws : List Word) (start target : Word) (hs : start ∈ ws)
    (hne : target ≠ start) : BfsInv ws start target 0 (initState start target) := by
  refine ⟨rfl, rfl, rfl, by simp [initState], ?_, ?_, ?_, ?_, ?_, ?_, ?_⟩
  · intro p hp
    rw [show initState start target = ⟨target, [start], [[start]], none, false⟩
      from rfl] at hp
    simp only [List.mem_singleton] at hp
    subst hp
    rw [lastWord_singleton]
    exact ⟨isLadder_singleton hs, rfl⟩
  · simp [initState]
  · intro w hw
    simp only [initState, List.mem_singleton] at hw
    exact Or.inl hw
  · intro w hw
    simp only [initState, List.mem_singleton] at hw
    subst hw
    exact ⟨0, le_refl 0, ReachN.refl hs⟩
  · intro w j hj hr hwt
    interval_cases j
    rw [reachN_zero_eq hr]
    simp [initState]
  · intro w hd hwt
    rw [reachN_zero_eq hd.1]
    exact ⟨[start], by simp [initState], lastWord_singleton start⟩
  · intro j hj hr
    interval_cases j
    exact hne (reachN_zero_eq hr)

theorem target_not_in_reached {ws : List Word} {start target : Word} {k : Nat}
    {s : DashState} (hInv : BfsInv ws start target k s) :
    target ∉ s.reachedWords := by
  intro h
  obtain ⟨j, hj, hr⟩ := hInv.reached_reach target h
  exact hInv.target_far j hj hr

theorem target_blocked {ws : List Word} {start target : Word} {k : Nat}
    {s : DashState} (hInv : BfsInv ws start target k s)
    (hwin : (extendLoop (buildOD ws) target s.searchPaths s.reachedWords
      []).winner = none) :
    ¬ ReachN ws start target (k + 1) := by
  intro hr
  obtain ⟨j, hj, hd⟩ := exists_distIs_of_reachN hr
  rcases Nat.lt_or_ge j (k + 1) with hlt | hge
  · exact hInv.target_far j (by omega) hd.1
  · have hj1 : j = k + 1 := by omega
    subst hj1
    obtain ⟨u, hdu, hleg, htw⟩ := distIs_pred hd
    have hut : u ≠ target := by
      intro he
      exact hInv.target_far k (le_refl k) (he ▸ hdu.1)
    obtain ⟨p, hp, hlast⟩ := hInv.frontier u hdu hut
    rcases extendLoop_target_untouched (buildOD ws) target s.searchPaths
        s.reachedWords [] hwin with h | h
    · exact target_not_in_reached hInv h
    · refine h p hp ?_
      rw [hlast]
      exact (mem_getTransformableWords ws u target).mpr ⟨htw, hleg⟩

theorem unreachable_of_exhausted {ws : List Word} {start target : Word}
    {k : Nat} {s : DashState} (hInv : BfsInv ws start target k s)
    (hwin : (extendLoop (buildOD ws) target s.searchPaths s.reachedWords
      []).winner = none)
    (hemp : (extendLoop (buildOD ws) target s.searchPaths s.reachedWords
      []).newPaths = []) :
    ∀ m, ¬ ReachN ws start target m := by
  have key : ∀ m, (∀ w, w ≠ target → ReachN ws start w m →
      ∃ j, j ≤ k ∧ ReachN ws start w j) ∧ ¬ ReachN ws start target m := by
    intro m
    induction m using Nat.strong_induction_on with
    | _ m ih =>
      constructor
      · intro w hwt hr
        rcases le_or_lt m k with hm | hm
        · exact ⟨m, hm, hr⟩
        · cases m with
          | zero => omega
          | succ m' =>
            obtain ⟨u, hu, hleg, hww⟩ := reachN_succ_inv hr
            have hut : u ≠ target := fun he => (ih m' (by omega)).2 (he ▸ hu)
            obtain ⟨j, hj, hrj⟩ := (ih m' (by omega)).1 u hut hu
            obtain ⟨j2, hj2, hd⟩ := exists_distIs_of_reachN hrj
            rcases Nat.lt_or_ge j2 k with hlt | hge
            · exact ⟨j2 + 1, by omega, ReachN.step hd.1 hleg hww⟩
            · have hj2k : j2 = k := by omega
              subst hj2k
              obtain ⟨p, hp, hlast⟩ := hInv.frontier u hd hut
              have hwtr : w ∈ getTransformableWords (buildOD ws) (lastWord p) := by
                rw [hlast]
                exact (mem_getTransformableWords ws u w).mpr ⟨hww, hleg⟩
              by_cases hwr : w ∈ s.reachedWords
              · exact hInv.reached_reach w hwr
              · exfalso
                obtain ⟨⟨q, hq, -⟩, -⟩ := extendLoop_complete (buildOD ws)
                  target s.searchPaths s.reachedWords [] hwin p hp w hwtr hwr
                rw [hemp] at hq
                exact List.not_mem_nil q hq
      · rcases le_or_lt m k with hm | hm
        · exact hInv.target_far m hm
        · cases m with
          | zero => omega
          | succ m' =>
            intro hr
            obtain ⟨u, hu, hleg, htw⟩ := reachN_succ_inv hr
            have hut : u ≠ target := ne_of_legalTransformation hleg
            obtain ⟨j, hj, hrj⟩ := (ih m' (by omega)).1 u hut hu
            obtain ⟨j2, hj2, hd⟩ := exists_distIs_of_reachN hrj
            rcases Nat.lt_or_ge j2 k with hlt | hge
            · exact hInv.target_far (j2 + 1) (by omega)
                (ReachN.step hd.1 hleg htw)
            · have hj2k : j2 = k := by omega
              subst hj2k
              obtain ⟨p, hp, hlast⟩ := hInv.frontier u hd hut
              rcases extendLoop_target_untouched (buildOD ws) target
                  s.searchPaths s.reachedWords [] hwin with h | h
              · exact target_not_in_reached hInv h
              · refine h p hp ?_
                rw [hlast]
                exact (mem_getTransformableWords ws u target).mpr ⟨htw, hleg⟩
  intro m
  exact (key m).2

theorem extendPaths_round (ws : List Word) (start target : Word) (k : Nat)
    (s : DashState) (hInv : BfsInv ws start target k s) :
    (∃ q, (extendPaths (buildOD ws) s).finished = true ∧
        (extendPaths (buildOD ws) s).successfulPath = some q ∧
        IsLadder ws start target q ∧ q.length = k + 2) ∨
    ((extendPaths (buildOD ws) s).finished = true ∧
      (extendPaths (buildOD ws) s).successfulPath = none ∧
      ∀ m, ¬ ReachN ws start target m) ∨
    BfsInv ws start target (k + 1) (extendPaths (buildOD ws) s) := by
  have htgt_eq := hInv.target_eq
  cases hwin : (extendLoop (buildOD ws) s.targetWord s.searchPaths
      s.reachedWords []).winner with
  | some q =>
    left
    rw [extendPaths_eq_of_winner_some (buildOD ws) s q hwin]
    rw [htgt_eq] at hwin
    obtain ⟨p, hp, hq, htv, htr⟩ := extendLoop_winner_shape (buildOD ws)
      target s.searchPaths s.reachedWords [] q hwin
    subst hq
    obtain ⟨hlad, hlen⟩ := hInv.paths_spec p hp
    have hmem := (mem_getTransformableWords ws (lastWord p) target).mp htv
    exact ⟨p ++ [target], rfl, rfl,
      isLadder_append hlad hmem.2 hmem.1, by simp [hlen]⟩
  | none =>
    rw [extendPaths_eq_of_winner_none (buildOD ws) s hwin]
    rw [htgt_eq] at hwin ⊢
    cases hemp : (extendLoop (buildOD ws) target s.searchPaths
        s.reachedWords []).newPaths.isEmpty with
    | true =>
      right; left
      have hempty : (extendLoop (buildOD ws) target s.searchPaths
          s.reachedWords []).newPaths = [] := List.isEmpty_iff.mp hemp
      refine ⟨?_, hInv.no_success, unreachable_of_exhausted hInv hwin hempty⟩
      rw [hInv.not_finished]
      rfl
    | false =>
      right; right
      have hne : (extendLoop (buildOD ws) target s.searchPaths
          s.reachedWords []).newPaths ≠ [] := by
        intro h
        rw [h] at hemp
        simp at hemp
      refine ⟨rfl, ?_, hInv.no_success, hne, ?_, ?_, ?_, ?_, ?_, ?_, ?_⟩
      · rw [hInv.not_finished]
        rfl
      · -- paths_spec
        intro q hq
        rcases extendLoop_newPaths_src (buildOD ws) target s.searchPaths
            s.reachedWords [] q hq with h | ⟨p, hp, w, hw, rfl⟩
        · exact absurd h (List.not_mem_nil q)
        · obtain ⟨hlad, hlen⟩ := hInv.paths_spec p hp
          have hmem := (mem_getTransformableWords ws (lastWord p) w).mp hw
          rw [lastWord_append]
          exact ⟨isLadder_append hlad hmem.2 hmem.1, by simp [hlen]⟩
      · exact extendLoop_reached_nodup (buildOD ws) target s.searchPaths
          s.reachedWords [] hInv.reached_nodup
      · -- reached_src
        intro w hw
        rcases extendLoop_reached_src (buildOD ws) target s.searchPaths
            s.reachedWords [] w hw with h | ⟨p, hp, hwt⟩
        · exact hInv.reached_src w h
        · exact Or.inr (getTransformableWords_subset ws (lastWord p) w hwt)
      · -- reached_reach
        intro w hw
        rcases extendLoop_reached_src (buildOD ws) target s.searchPaths
            s.reachedWords [] w hw with h | ⟨p, hp, hwt⟩
        · obtain ⟨j, hj, hr⟩ := hInv.reached_reach w h
          exact ⟨j, by omega, hr⟩
        · obtain ⟨hlad, hlen⟩ := hInv.paths_spec p hp
          have hr := reachN_of_isLadder hlad
          have hlen2 : p.length - 1 = k := by omega
          rw [hlen2] at hr
          have hmem := (mem_getTransformableWords ws (lastWord p) w).mp hwt
          exact ⟨k + 1, le_refl _, ReachN.step hr hmem.2 hmem.1⟩
      · -- reached_complete
        intro w j hj hr hwt
        rcases le_or_lt j k with hjk | hjk
        · exact extendLoop_reached_mono (buildOD ws) target s.searchPaths
            s.reachedWords [] w (hInv.reached_complete w j hjk hr hwt)
        · have hj1 : j = k + 1 := by omega
          subst hj1
          obtain ⟨j2, hj2, hd⟩ := exists_distIs_of_reachN hr
          rcases le_or_lt j2 k with hj2k | hj2k
          · exact extendLoop_reached_mono (buildOD ws) target s.searchPaths
              s.reachedWords [] w (hInv.reached_complete w j2 hj2k hd.1 hwt)
          · have hj21 : j2 = k + 1 := by omega
            subst hj21
            obtain ⟨u, hdu, hleg, hww⟩ := distIs_pred hd
            have hut : u ≠ target := by
              intro he
              exact hInv.target_far k (le_refl k) (he ▸ hdu.1)
            obtain ⟨p, hp, hlast⟩ := hInv.frontier u hdu hut
            have hwtr : w ∈ getTransformableWords (buildOD ws) (lastWord p) := by
              rw [hlast]
              exact (mem_getTransformableWords ws u w).mpr ⟨hww, hleg⟩
            by_cases hwr : w ∈ s.reachedWords
            · exact extendLoop_reached_mono (buildOD ws) target s.searchPaths
                s.reachedWords [] w hwr
            · exact (extendLoop_complete (buildOD ws) target s.searchPaths
                s.reachedWords [] hwin p hp w hwtr hwr).2
      · -- frontier
        intro w hd hwt
        obtain ⟨u, hdu, hleg, hww⟩ := distIs_pred hd
        have hut : u ≠ target := by
          intro he
          exact hInv.target_far k (le_refl k) (he ▸ hdu.1)
        obtain ⟨p, hp, hlast⟩ := hInv.frontier u hdu hut
        have hwtr : w ∈ getTransformableWords (buildOD ws) (lastWord p) := by
          rw [hlast]
          exact (mem_getTransformableWords ws u w).mpr ⟨hww, hleg⟩
        have hwr : w ∉ s.reachedWords := by
          intro hmem
          obtain ⟨j, hj, hr⟩ := hInv.reached_reach w hmem
          exact hd.2 j (by omega) hr
        exact (extendLoop_complete (buildOD ws) target s.searchPaths
          s.reachedWords [] hwin p hp w hwtr hwr).1
      · -- target_far
        intro j hj
        rcases le_or_lt j k with hjk | hjk
        · exact hInv.target_far j hjk
        · have hj1 : j = k + 1 := by omega
          subst hj1
          exact target_blocked hInv hwin

/-! ## The search loop -/

theorem runSearch_zero (od : OrganisedDict) (s : DashState) :
    runSearch od 0 s = s := rfl

theorem runSearch_succ (od : OrganisedDict) (n : Nat) (s : DashState) :
    runSearch od (n + 1) s =
      if s.finished then s else runSearch od n (extendPaths od s) := rfl

theorem runSearch_finished_fix (od : OrganisedDict) (n : Nat) (s : DashState)
    (h : s.finished = true) : runSearch od n s = s := by
  induction n with
  | zero => rfl
  | succ n ih => rw [runSearch_succ, if_pos h]

theorem runSearch_sound (ws : List Word) (start target : Word) :
    ∀ (n k : Nat) (s : DashState), BfsInv ws start target k s →
      ∀ q, (runSearch (buildOD ws) n s).successfulPath = some q →
        IsLadder ws start target q ∧
          ∀ l, IsLadder ws start target l → q.length ≤ l.length := by
  intro n
  induction n with
  | zero =>
    intro k s hInv q hq
    rw [runSearch_zero, hInv.no_success] at hq
    exact absurd hq (by simp)
  | succ n ih =>
    intro k s hInv q hq
    rw [runSearch_succ, if_neg (by rw [hInv.not_finished]; simp)] at hq
    rcases extendPaths_round ws start target k s hInv with
      ⟨q2, hfin, hsucc, hlad, hlen⟩ | ⟨hfin, hsucc, hunr⟩ | hInv2
    · rw [runSearch_finished_fix _ _ _ hfin, hsucc] at hq
      have hq2 : q2 = q := Option.some_inj.mp hq
      subst hq2
      refine ⟨hlad, ?_⟩
      intro l hl
      have hr := reachN_of_isLadder hl
      have hlge : k + 1 ≤ l.length - 1 := by
        by_contra hlt
        push_neg at hlt
        exact hInv.target_far (l.length - 1) (by omega) hr
      have hlne : 0 < l.length := List.length_pos.mpr hl.1
      omega
    · rw [runSearch_finished_fix _ _ _ hfin, hsucc] at hq
      exact absurd hq (by simp)
    · exact ih (k + 1) _ hInv2 q hq

theorem runSearch_exhaust (ws : List Word) (start target : Word) :
    ∀ (n k : Nat) (s : DashState), BfsInv ws start target k s →
      (runSearch (buildOD ws) n s).finished = true →
      (runSearch (buildOD ws) n s).successfulPath = none →
      ∀ m, ¬ ReachN ws start target m := by
  intro n
  induction n with
  | zero =>
    intro k s hInv hfin hsucc
    rw [runSearch_zero] at hfin
    rw [hInv.not_finished] at hfin
    exact absurd hfin (by simp)
  | succ n ih =>
    intro k s hInv hfin hsucc
    rw [runSearch_succ, if_neg (by rw [hInv.not_finished]; simp)] at hfin hsucc
    rcases extendPaths_round ws start target k s hInv with
      ⟨q2, hfin2, hsucc2, hlad, hlen⟩ | ⟨hfin2, hsucc2, hunr⟩ | hInv2
    · rw [runSearch_finished_fix _ _ _ hfin2, hsucc2] at hsucc
      exact absurd hsucc (by simp)
    · exact hunr
    · exact ih (k + 1) _ hInv2 hfin hsucc

theorem extendPaths_tinv (ws : List Word) (start : Word) (s : DashState)
    (h : TInv ws start s) (hnf : s.finished = false) :
    TInv ws start (extendPaths (buildOD ws) s) ∧
      ((extendPaths (buildOD ws) s).finished = true ∨
        s.reachedWords.length <
          (extendPaths (buildOD ws) s).reachedWords.length) := by
  obtain ⟨hnd, hsrc⟩ := h
  have htinv : TInv ws start
      { s with
        reachedWords := (extendLoop (buildOD ws) s.targetWord s.searchPaths
          s.reachedWords []).reached } := by
    constructor
    · exact extendLoop_reached_nodup (buildOD ws) s.targetWord s.searchPaths
        s.reachedWords [] hnd
    · intro w hw
      rcases extendLoop_reached_src (buildOD ws) s.targetWord s.searchPaths
          s.reachedWords [] w hw with h2 | ⟨p, hp, hwt⟩
      · exact hsrc w h2
      · exact Or.inr (getTransformableWords_subset ws (lastWord p) w hwt)
  cases hwin : (extendLoop (buildOD ws) s.targetWord s.searchPaths
      s.reachedWords []).winner with
  | some q =>
    rw [extendPaths_eq_of_winner_some (buildOD ws) s q hwin]
    exact ⟨htinv, Or.inl rfl⟩
  | none =>
    rw [extendPaths_eq_of_winner_none (buildOD ws) s hwin]
    refine ⟨htinv, ?_⟩
    cases hemp : (extendLoop (buildOD ws) s.targetWord s.searchPaths
        s.reachedWords []).newPaths.isEmpty with
    | true =>
      left
      rw [hnf]
      rfl
    | false =>
      right
      have hcount := extendLoop_count (buildOD ws) s.targetWord s.searchPaths
        s.reachedWords [] hwin
      have hne : (extendLoop (buildOD ws) s.targetWord s.searchPaths
          s.reachedWords []).newPaths ≠ [] := by
        intro hh
        rw [hh] at hemp
        simp at hemp
      have hpos : 0 < (extendLoop (buildOD ws) s.targetWord s.searchPaths
          s.reachedWords []).newPaths.length := List.length_pos.mpr hne
      simp only [List.length_nil] at hcount
      show s.reachedWords.length < (extendLoop (buildOD ws) s.targetWord
        s.searchPaths s.reachedWords []).reached.length
      omega

theorem runSearch_progress (ws : List Word) (start : Word) :
    ∀ (n : Nat) (s : DashState), TInv ws start s →
      (runSearch (buildOD ws) n s).finished = true ∨
        (TInv ws start (runSearch (buildOD ws) n s) ∧
          s.reachedWords.length + n ≤
            (runSearch (buildOD ws) n s).reachedWords.length) := by
  intro n
  induction n with
  | zero =>
    intro s h
    right
    rw [runSearch_zero]
    exact ⟨h, by omega⟩
  | succ n ih =>
    intro s h
    cases hfin : s.finished with
    | true =>
      left
      rw [runSearch_finished_fix _ _ _ hfin]
      exact hfin
    | false =>
      rw [runSearch_succ, if_neg (by rw [hfin]; simp)]
      obtain ⟨htinv, hstep⟩ := extendPaths_tinv ws start s h hfin
      rcases hstep with hfin2 | hgrow
      · left
        rw [runSearch_finished_fix _ _ _ hfin2]
        exact hfin2
      · rcases ih (extendPaths (buildOD ws) s) htinv with h2 | ⟨h2, hlen⟩
        · exact Or.inl h2
        · exact Or.inr ⟨h2, by omega⟩

theorem tinv_reached_le (ws : List Word) (start : Word) (s : DashState)
    (h : TInv ws start s) : s.reachedWords.length ≤ ws.length + 1 := by
  obtain ⟨hnd, hsrc⟩ := h
  have hsub : s.reachedWords.toFinset ⊆ (start :: ws).toFinset := by
    intro w hw
    rw [List.mem_toFinset] at hw
    rw [List.mem_toFinset]
    rcases hsrc w hw with rfl | h2
    · exact List.mem_cons_self _ _
    · exact List.mem_cons_of_mem _ h2
  calc s.reachedWords.length = s.reachedWords.toFinset.card :=
        (List.toFinset_card_of_nodup hnd).symm
    _ ≤ (start :: ws).toFinset.card := Finset.card_le_card hsub
    _ ≤ (start :: ws).length := List.toFinset_card_le _
    _ = ws.length + 1 := by simp

theorem tinv_reached_le_of_mem (ws : List Word) (start : Word) (s : DashState)
    (h : TInv ws start s) (hs : start ∈ ws) :
    s.reachedWords.length ≤ ws.length := by
  obtain ⟨hnd, hsrc⟩ := h
  have hsub : s.reachedWords.toFinset ⊆ ws.toFinset := by
    intro w hw
    rw [List.mem_toFinset] at hw
    rw [List.mem_toFinset]
    rcases hsrc w hw with rfl | h2
    · exact hs
    · exact h2
  calc s.reachedWords.length = s.reachedWords.toFinset.card :=
        (List.toFinset_card_of_nodup hnd).symm
    _ ≤ ws.toFinset.card := Finset.card_le_card hsub
    _ ≤ ws.length := List.toFinset_card_le _

theorem tinv_init (ws : List Word) (start e : Word) :
    TInv ws start (initState start e) := by
  constructor
  · simp [initState]
  · intro w hw
    simp only [initState, List.mem_singleton] at hw
    exact Or.inl hw

/-- Fuel `|words| + 1` always drives the search to a finished state. -/
theorem runSearch_terminates (ws : List Word) (start e : Word) :
    (runSearch (buildOD ws) (ws.length + 1) (initState start e)).finished =
      true := by
  rcases runSearch_progress ws start (ws.length + 1) (initState start e)
      (tinv_init ws start e) with h | ⟨htinv, hlen⟩
  · exact h
  · exfalso
    have hcap := tinv_reached_le ws start _ htinv
    rw [show (initState start e).reachedWords.length = 1 from rfl] at hlen
    omega

/-- With the start word in the dictionary, `|words|` rounds suffice. -/
theorem runSearch_terminates_of_mem (ws : List Word) (start e : Word)
    (hs : start ∈ ws) :
    (runSearch (buildOD ws) ws.length (initState start e)).finished = true := by
  rcases runSearch_progress ws start ws.length (initState start e)
      (tinv_init ws start e) with h | ⟨htinv, hlen⟩
  · exact h
  · exfalso
    have hcap := tinv_reached_le_of_mem ws start _ htinv hs
    rw [show (initState start e).reachedWords.length = 1 from rfl] at hlen
    omega

theorem runSearch_no_success_of_target_reached (od : OrganisedDict) :
    ∀ (n : Nat) (s : DashState), s.targetWord ∈ s.reachedWords →
      (runSearch od n s).successfulPath = s.successfulPath := by
  intro n
  induction n with
  | zero => intro s _; rfl
  | succ n ih =>
    intro s ht
    rw [runSearch_succ]
    by_cases hfin : s.finished = true
    · rw [if_pos hfin]
    · rw [if_neg hfin]
      have hwin := extendLoop_no_winner_of_target_reached od s.targetWord
        s.searchPaths s.reachedWords [] ht
      rw [extendPaths_eq_of_winner_none od s hwin] at *
      rw [ih _ (extendLoop_reached_mono od s.targetWord s.searchPaths
        s.reachedWords [] _ ht)]

/-! ## Top-level helpers -/

theorem init_ok_eq {ws : List Word} {od : OrganisedDict}
    (h : OrganisedDictionary.init ws = Except.ok od) : od = buildOD ws := by
  cases ws with
  | nil =>
    have h2 : Except.ok (buildOD ([] : List Word)) =
        (Except.ok od : Except Unit OrganisedDict) := h
    exact (Except.ok.inj h2).symm
  | cons w0 rest =>
    have hdef : OrganisedDictionary.init (w0 :: rest) =
        if (w0 :: rest).all (fun w => w.length = w0.length) then
          Except.ok (buildOD (w0 :: rest))
        else Except.error () := rfl
    rw [hdef] at h
    by_cases hall : (w0 :: rest).all (fun w => w.length = w0.length) = true
    · rw [if_pos hall] at h
      exact (Except.ok.inj h).symm
    · rw [if_neg hall] at h
      exact absurd h (by simp)

theorem getShortest_self (od : OrganisedDict) (w : Word) :
    getShortestTransformationSequence od w w = none := by
  unfold getShortestTransformationSequence
  rw [runSearch_no_success_of_target_reached od (od.words.length + 1)
    (initState w w) (by simp [initState])]
  rfl

theorem start_mem_augment (dict : List Word) (s e : Word) :
    s ∈ augmentDictionary dict s e := by
  unfold augmentDictionary
  by_cases h1 : s ∈ dict
  · rw [if_pos h1]
    by_cases h2 : e ∈ dict
    · rw [if_pos h2]
      exact h1
    · rw [if_neg h2]
      exact List.mem_append.mpr (Or.inl h1)
  · rw [if_neg h1]
    have hs : s ∈ dict ++ [s] := List.mem_append.mpr (Or.inr (by simp))
    by_cases h2 : e ∈ dict ++ [s]
    · rw [if_pos h2]
      exact hs
    · rw [if_neg h2]
      exact List.mem_append.mpr (Or.inl hs)

theorem end_mem_augment (dict : List Word) (s e : Word) :
    e ∈ augmentDictionary dict s e := by
  unfold augmentDictionary
  by_cases h2 : e ∈ (if s ∈ dict then dict else dict ++ [s])
  · rw [if_pos h2]
    exact h2
  · rw [if_neg h2]
    exact List.mem_append.mpr (Or.inr (by simp))

theorem no_ladder_of_no_edge (dict : List Word) (s e : Word) (hne : s ≠ e)
    (hno : ∀ u ∈ dict, legalTransformation u e = false) :
    ¬ ∃ l, IsLadder dict s e l := by
  rintro ⟨l, hl⟩
  obtain ⟨n, hn⟩ := (exists_ladder_iff_exists_reachN dict s e).mp ⟨l, hl⟩
  cases hn with
  | refl hs => exact hne rfl
  | step hu hleg hw =>
    rw [hno _ hu.end_mem] at hleg
    exact Bool.false_ne_true hleg

theorem legal_differs_iff (w1 w2 : Word) :
    legalTransformation w1 w2 = true ↔ differsInExactlyOne w1 w2 := by
  rw [legalTransformation_eq_true_iff]
  unfold differsInExactlyOne
  constructor
  · rintro ⟨h1, h2, h3⟩
    exact ⟨h1, h2, (diffCount_eq_one_iff w1 w2 h1).mp h3⟩
  · rintro ⟨h1, h2, h3⟩
    exact ⟨h1, h2, (diffCount_eq_one_iff w1 w2 h1).mpr h3⟩

/-! ## The claims -/

/-- C1: whenever `getShortestTransformationSequence` returns a path, its
number of transformations is minimal among all ladders from the start word
to the end word through dictionary words. -/
theorem getShortestTransformationSequence_minimal (dict : List Word)
    (od : OrganisedDict) (startWord endWord : Word) (p l : List Word)
    (hod : OrganisedDictionary.init dict = Except.ok od)
    (hs : startWord ∈ dict)
    (hp : getShortestTransformationSequence od startWord endWord = some p)
    (hl : IsLadder dict startWord endWord l) :
    numTransformations p ≤ numTransformations l := by
  have hodeq := init_ok_eq hod
  subst hodeq
  by_cases hne : endWord = startWord
  · subst hne
    rw [getShortest_self] at hp
    exact absurd hp (by simp)
  · have hInv := inv_init dict startWord endWord hs hne
    have hp2 : (runSearch (buildOD dict) (dict.length + 1)
        (initState startWord endWord)).successfulPath = some p := hp
    obtain ⟨hlad, hmin⟩ := runSearch_sound dict startWord endWord
      (dict.length + 1) 0 (initState startWord endWord) hInv p hp2
    have hle := hmin l hl
    unfold numTransformations
    omega

/-- C1 witness: on the six-word dictionary the search from hot to dog
returns the two-transformation path hot-dot-dog, which is no longer than
the four-transformation ladder hot-lot-log-cog-dog. -/
theorem getShortestTransformationSequence_minimal_witness :
    getShortestTransformationSequence (buildOD dictSix) hot dog =
      some [hot, dot, dog] ∧
    numTransformations [hot, dot, dog] = 2 ∧
    numTransformations [hot, dot, dog] ≤
      numTransformations [hot, lot, log, cog, dog] := by
  refine ⟨by decide, by decide, ?_⟩
  exact getShortestTransformationSequence_minimal dictSix (buildOD dictSix)
    hot dog [hot, dot, dog] [hot, lot, log, cog, dog] (by decide) (by decide)
    (by decide) ((isLadder_iff_ladderB _ _ _ _).mpr (by decide))

/-- C2: a returned path is a non-empty sequence that starts at the start
word, ends at the end word, and whose consecutive words are all legal
transforms. -/
theorem getShortestTransformationSequence_path_valid (dict : List Word)
    (od : OrganisedDict) (startWord endWord : Word) (p : List Word)
    (hod : OrganisedDictionary.init dict = Except.ok od)
    (hs : startWord ∈ dict)
    (hp : getShortestTransformationSequence od startWord endWord = some p) :
    p ≠ [] ∧ p.head? = some startWord ∧ p.getLast? = some endWord ∧
      List.Chain' (fun a b => legalTransformation a b = true) p := by
  have hodeq := init_ok_eq hod
  subst hodeq
  by_cases hne : endWord = startWord
  · subst hne
    rw [getShortest_self] at hp
    exact absurd hp (by simp)
  · have hInv := inv_init dict startWord endWord hs hne
    have hp2 : (runSearch (buildOD dict) (dict.length + 1)
        (initState startWord endWord)).successfulPath = some p := hp
    obtain ⟨⟨h1, h2, h3, h4, h5⟩, -⟩ := runSearch_sound dict startWord endWord
      (dict.length + 1) 0 (initState startWord endWord) hInv p hp2
    exact ⟨h1, h2, h3, h5⟩

/-- C2 witness: the path returned for hot to cog is hot-lot-log-cog, and it
is non-empty, start-anchored, end-anchored, and a chain of legal
transforms. -/
theorem getShortestTransformationSequence_path_valid_witness :
    getShortestTransformationSequence (buildOD dictSix) hot cog =
      some [hot, lot, log, cog] ∧
    ([hot, lot, log, cog] ≠ [] ∧
      [hot, lot, log, cog].head? = some hot ∧
      [hot, lot, log, cog].getLast? = some cog ∧
      List.Chain' (fun a b => legalTransformation a b = true)
        [hot, lot, log, cog]) := by
  refine ⟨by decide, ?_⟩
  exact getShortestTransformationSequence_path_valid dictSix (buildOD dictSix)
    hot cog [hot, lot, log, cog] (by decide) (by decide) (by decide)

/-- C3 counterexample: the claim says `lengthOfShortestTransform(w, w, d)`
returns `0`; on the code it returns `-1` (the target is marked reached from
the start, so the success test can never fire). -/
theorem lengthOfShortestTransform_self_ne_zero :
    lengthOfShortestTransform hot hot [hot] ≠ Except.ok 0 := by decide

/-- C3 amended: when the start word equals the end word the search never
succeeds — the target is in the reached set from initialisation, every
candidate next word is filtered against that set, so the search exhausts
and `lengthOfShortestTransform` returns `-1` (whenever the augmented
dictionary passes construction validation). -/
theorem lengthOfShortestTransform_self_eq_neg_one (w : Word)
    (dict : List Word) (od : OrganisedDict)
    (hod : OrganisedDictionary.init (augmentDictionary dict w w) =
      Except.ok od) :
    lengthOfShortestTransform w w dict = Except.ok (-1) := by
  unfold lengthOfShortestTransform
  simp only
  rw [hod]
  show (match getShortestTransformationSequence od w w with
      | none => Except.ok (-1)
      | some searchPath => Except.ok (numTransformations searchPath)) =
    Except.ok (-1)
  rw [getShortest_self]

/-- C3 witness for the amended claim. -/
theorem lengthOfShortestTransform_self_witness :
    lengthOfShortestTransform hot hot [hot] = Except.ok (-1) :=
  lengthOfShortestTransform_self_eq_neg_one hot [hot] (buildOD [hot])
    (by decide)

/-- C4 counterexample: with dictionary `[dot]`, start and end both `hot`, a
ladder from hot to hot exists through the augmented dictionary (the
one-word ladder), yet `lengthOfShortestTransform` returns `-1` — so
"returns -1 iff no ladder exists" fails as stated. -/
theorem lengthOfShortestTransform_neg_one_iff_counterexample :
    (∃ l, IsLadder (augmentDictionary [dot] hot hot) hot hot l) ∧
      lengthOfShortestTransform hot hot [dot] = Except.ok (-1) := by
  constructor
  · exact ⟨[hot], (isLadder_iff_ladderB _ _ _ _).mpr (by decide)⟩
  · decide

/-- C4 amended: for distinct start and end words (and an augmented
dictionary that passes construction validation) `lengthOfShortestTransform`
returns `-1` iff no transformation ladder from the start word to the end
word exists through the augmented dictionary; when it does not return `-1`
it returns the transformation count of the found path. The start = end case
is excluded: there the code returns `-1` even though a trivial ladder
exists (see the counterexample). -/
theorem lengthOfShortestTransform_neg_one_iff (startWord endWord : Word)
    (dict : List Word) (od : OrganisedDict)
    (hod : OrganisedDictionary.init (augmentDictionary dict startWord endWord)
      = Except.ok od)
    (hne : startWord ≠ endWord) :
    lengthOfShortestTransform startWord endWord dict = Except.ok (-1) ↔
      ¬ ∃ l, IsLadder (augmentDictionary dict startWord endWord)
        startWord endWord l := by
  have hodeq := init_ok_eq hod
  subst hodeq
  have hsD := start_mem_augment dict startWord endWord
  have hne2 : endWord ≠ startWord := fun h => hne h.symm
  have hInv := inv_init (augmentDictionary dict startWord endWord) startWord
    endWord hsD hne2
  have hiff : getShortestTransformationSequence
      (buildOD (augmentDictionary dict startWord endWord)) startWord endWord
        = none ↔
      ¬ ∃ l, IsLadder (augmentDictionary dict startWord endWord) startWord
        endWord l := by
    constructor
    · intro hres
      have hfin := runSearch_terminates (augmentDictionary dict startWord
        endWord) startWord endWord
      have hres2 : (runSearch (buildOD (augmentDictionary dict startWord
          endWord)) ((augmentDictionary dict startWord endWord).length + 1)
          (initState startWord endWord)).successfulPath = none := hres
      have hunr := runSearch_exhaust (augmentDictionary dict startWord
        endWord) startWord endWord
        ((augmentDictionary dict startWord endWord).length + 1) 0
        (initState startWord endWord) hInv hfin hres2
      rintro ⟨l, hl⟩
      obtain ⟨m, hm⟩ := (exists_ladder_iff_exists_reachN _ _ _).mp ⟨l, hl⟩
      exact hunr m hm
    · intro hnl
      cases hsp : getShortestTransformationSequence
          (buildOD (augmentDictionary dict startWord endWord)) startWord
          endWord with
      | none => rfl
      | some sp =>
        have hsp2 : (runSearch (buildOD (augmentDictionary dict startWord
            endWord)) ((augmentDictionary dict startWord endWord).length + 1)
            (initState startWord endWord)).successfulPath = some sp := hsp
        obtain ⟨hlad, -⟩ := runSearch_sound (augmentDictionary dict startWord
          endWord) startWord endWord
          ((augmentDictionary dict startWord endWord).length + 1) 0
          (initState startWord endWord) hInv sp hsp2
        exact absurd ⟨sp, hlad⟩ hnl
  unfold lengthOfShortestTransform
  simp only
  rw [hod]
  show (match getShortestTransformationSequence
      (buildOD (augmentDictionary dict startWord endWord)) startWord endWord
      with
      | none => Except.ok (-1)
      | some searchPath => Except.ok (numTransformations searchPath)) =
      Except.ok (-1) ↔
    ¬ ∃ l, IsLadder (augmentDictionary dict startWord endWord) startWord
      endWord l
  rw [← hiff]
  cases hres : getShortestTransformationSequence
      (buildOD (augmentDictionary dict startWord endWord)) startWord
      endWord with
  | none => simp
  | some sp =>
    have hsp2 : (runSearch (buildOD (augmentDictionary dict startWord
        endWord)) ((augmentDictionary dict startWord endWord).length + 1)
        (initState startWord endWord)).successfulPath = some sp := hres
    obtain ⟨hlad, -⟩ := runSearch_sound (augmentDictionary dict startWord
      endWord) startWord endWord
      ((augmentDictionary dict startWord endWord).length + 1) 0
      (initState startWord endWord) hInv sp hsp2
    have hlen : 0 < sp.length := List.length_pos.mpr hlad.1
    constructor
    · intro hcontra
      have h2 := Except.ok.inj hcontra
      unfold numTransformations at h2
      omega
    · intro hcontra
      exact absurd hcontra (by simp)

/-- C4 witness: the no-path example — dictionary hot/dot/dog, start hot, end
xyz — returns `-1`, and by the theorem no ladder to xyz exists through the
augmented dictionary. -/
theorem lengthOfShortestTransform_neg_one_iff_witness :
    ¬ ∃ l, IsLadder (augmentDictionary [hot, dot, dog] hot xyz) hot xyz l :=
  (lengthOfShortestTransform_neg_one_iff hot xyz [hot, dot, dog]
    (buildOD [hot, dot, dog, xyz]) (by decide) (by decide)).mp (by decide)

/-- C5: with the start word in the dictionary and an unreachable end word,
after at most `|dictionary|` rounds the search is finished with no
successful path (the Exhausted state), and the query returns the absent
result. (The lemma `runSearch_terminates` separately shows the loop
terminates on every input within `|dictionary| + 1` rounds.) -/
theorem runSearch_exhausts_in_dict_rounds (dict : List Word)
    (od : OrganisedDict) (startWord endWord : Word)
    (hod : OrganisedDictionary.init dict = Except.ok od)
    (hs : startWord ∈ dict)
    (hnr : ¬ ∃ l, IsLadder dict startWord endWord l) :
    (runSearch od dict.length (initState startWord endWord)).finished =
      true ∧
    (runSearch od dict.length (initState startWord endWord)).successfulPath
      = none ∧
    getShortestTransformationSequence od startWord endWord = none ∧
    (∀ s2 e2 : Word, (runSearch od (dict.length + 1)
      (initState s2 e2)).finished = true) := by
  have hodeq := init_ok_eq hod
  subst hodeq
  have hne : endWord ≠ startWord := by
    intro h
    refine hnr ⟨[startWord], ?_⟩
    rw [h]
    exact isLadder_singleton hs
  have hInv := inv_init dict startWord endWord hs hne
  have hfin := runSearch_terminates_of_mem dict startWord endWord hs
  refine ⟨hfin, ?_, ?_, fun s2 e2 => runSearch_terminates dict s2 e2⟩
  · cases hsp : (runSearch (buildOD dict) dict.length
        (initState startWord endWord)).successfulPath with
    | none => rfl
    | some q =>
      obtain ⟨hlad, -⟩ := runSearch_sound dict startWord endWord dict.length
        0 (initState startWord endWord) hInv q hsp
      exact absurd ⟨q, hlad⟩ hnr
  · cases hsp : getShortestTransformationSequence (buildOD dict) startWord
        endWord with
    | none => rfl
    | some q =>
      have hsp2 : (runSearch (buildOD dict) (dict.length + 1)
          (initState startWord endWord)).successfulPath = some q := hsp
      obtain ⟨hlad, -⟩ := runSearch_sound dict startWord endWord
        (dict.length + 1) 0 (initState startWord endWord) hInv q hsp2
      exact absurd ⟨q, hlad⟩ hnr

/-- C5 witness: hot cannot reach the isolated xyz in the four-word
dictionary; the search exhausts within four rounds and returns the absent
result. -/
theorem runSearch_exhausts_in_dict_rounds_witness :
    (runSearch (buildOD dictFour) dictFour.length (initState hot xyz)).finished
      = true ∧
    (runSearch (buildOD dictFour) dictFour.length
      (initState hot xyz)).successfulPath = none ∧
    getShortestTransformationSequence (buildOD dictFour) hot xyz = none ∧
    (∀ s2 e2 : Word, (runSearch (buildOD dictFour) (dictFour.length + 1)
      (initState s2 e2)).finished = true) :=
  runSearch_exhausts_in_dict_rounds dictFour (buildOD dictFour) hot xyz
    (by decide) (by decide)
    (no_ladder_of_no_edge dictFour hot xyz (by decide) (by decide))

/-- C6: `legalTransformation` returns true iff the two words have equal
non-zero length and differ in exactly one character position (hence false
for unequal lengths, empty strings, identical words, and words differing in
two or more positions). -/
theorem legalTransformation_true_iff (w1 w2 : Word) :
    legalTransformation w1 w2 = true ↔ differsInExactlyOne w1 w2 :=
  legal_differs_iff w1 w2

/-- C6 witness: hot and dot differ in exactly their first letter. -/
theorem legalTransformation_true_iff_witness : differsInExactlyOne hot dot :=
  (legalTransformation_true_iff hot dot).mp (by decide)

/-- C7: every word returned by `getTransformableWords` for a dictionary
member is a dictionary member of equal length differing in exactly one
letter, and is not the queried word itself. -/
theorem getTransformableWords_spec (dict : List Word) (od : OrganisedDict)
    (wordA wordB : Word)
    (hod : OrganisedDictionary.init dict = Except.ok od)
    (_hA : wordA ∈ dict) (hB : wordB ∈ getTransformableWords od wordA) :
    wordB ∈ dict ∧ wordB.length = wordA.length ∧
      differsInExactlyOne wordA wordB ∧ wordB ≠ wordA := by
  have hodeq := init_ok_eq hod
  subst hodeq
  obtain ⟨hmem, hleg⟩ := (mem_getTransformableWords dict wordA wordB).mp hB
  obtain ⟨hlen, -, -⟩ := (legalTransformation_eq_true_iff wordA wordB).mp hleg
  exact ⟨hmem, hlen.symm, (legal_differs_iff wordA wordB).mp hleg,
    (ne_of_legalTransformation hleg).symm⟩

/-- C7 witness: querying hot in the six-word dictionary yields dot, with all
four properties. -/
theorem getTransformableWords_spec_witness :
    dot ∈ dictSix ∧ dot.length = hot.length ∧ differsInExactlyOne hot dot ∧
      dot ≠ hot :=
  getTransformableWords_spec dictSix (buildOD dictSix) hot dot (by decide)
    (by decide) (by decide)

/-- C8: lookup reciprocity — if B is transformable from A then A is
transformable from B. -/
theorem getTransformableWords_reciprocal (dict : List Word)
    (od : OrganisedDict) (wordA wordB : Word)
    (hod : OrganisedDictionary.init dict = Except.ok od)
    (hA : wordA ∈ dict) (hB : wordB ∈ getTransformableWords od wordA) :
    wordA ∈ getTransformableWords od wordB := by
  have hodeq := init_ok_eq hod
  subst hodeq
  obtain ⟨hmem, hleg⟩ := (mem_getTransformableWords dict wordA wordB).mp hB
  refine (mem_getTransformableWords dict wordB wordA).mpr ⟨hA, ?_⟩
  rw [legalTransformation_symm]
  exact hleg

/-- C8 witness: dot is transformable from hot, and hot from dot. -/
theorem getTransformableWords_reciprocal_witness :
    hot ∈ getTransformableWords (buildOD dictSix) dot :=
  getTransformableWords_reciprocal dictSix (buildOD dictSix) hot dot
    (by decide) (by decide) (by decide)

/-- C9: constructing the index from a non-empty dictionary raises the
validation error iff some word has a length different from the first
word's; on failure no index value is produced (the `Except` is an error). -/
theorem organisedDictionary_init_error_iff (w0 : Word) (rest : List Word) :
    OrganisedDictionary.init (w0 :: rest) = Except.error () ↔
      ∃ w ∈ w0 :: rest, w.length ≠ w0.length := by
  have hdef : OrganisedDictionary.init (w0 :: rest) =
      if (w0 :: rest).all (fun w => w.length = w0.length) then
        Except.ok (buildOD (w0 :: rest))
      else Except.error () := rfl
  rw [hdef]
  by_cases hall : (w0 :: rest).all (fun w => w.length = w0.length) = true
  · rw [if_pos hall]
    rw [List.all_eq_true] at hall
    constructor
    · intro hcontra
      exact absurd hcontra (by simp)
    · rintro ⟨w, hw, hne⟩
      exact absurd (of_decide_eq_true (hall w hw)) hne
  · rw [if_neg hall]
    constructor
    · intro _
      rw [List.all_eq_true] at hall
      push_neg at hall
      obtain ⟨w, hw, hne⟩ := hall
      exact ⟨w, hw, fun he => hne (decide_eq_true he)⟩
    · intro _
      rfl

/-- C9 witness: a three-letter and a two-letter word mixed raise the
validation error. -/
theorem organisedDictionary_init_error_iff_witness :
    OrganisedDictionary.init [hot, ['h', 'o']] = Except.error () :=
  (organisedDictionary_init_error_iff hot [['h', 'o']]).mpr
    ⟨['h', 'o'], by decide, by decide⟩

/-- C10: the augmented dictionary used by `lengthOfShortestTransform` (the
model of its in-place mutation of the caller's list) is exactly the
caller's dictionary, in its original order, followed by the start word if
it was missing and then the end word if it was still missing; both query
words are members afterwards and nothing else is added or removed. -/
theorem augmentDictionary_spec (dict : List Word) (startWord endWord : Word) :
    (augmentDictionary dict startWord endWord).take dict.length = dict ∧
    startWord ∈ augmentDictionary dict startWord endWord ∧
    endWord ∈ augmentDictionary dict startWord endWord ∧
    augmentDictionary dict startWord endWord =
      dict ++ ((if startWord ∈ dict then [] else [startWord]) ++
        (if endWord ∈ dict ++ (if startWord ∈ dict then [] else [startWord])
          then [] else [endWord])) := by
  have hmain : augmentDictionary dict startWord endWord =
      dict ++ ((if startWord ∈ dict then [] else [startWord]) ++
        (if endWord ∈ dict ++ (if startWord ∈ dict then [] else [startWord])
          then [] else [endWord])) := by
    unfold augmentDictionary
    simp only
    by_cases h1 : startWord ∈ dict
    · simp only [if_pos h1, List.nil_append, List.append_nil]
      by_cases h2 : endWord ∈ dict
      · simp [if_pos h2]
      · simp [if_neg h2]
    · simp only [if_neg h1]
      by_cases h2 : endWord ∈ dict ∨ endWord = startWord
      · simp [h2]
      · simp [h2]
  refine ⟨?_, start_mem_augment dict startWord endWord,
    end_mem_augment dict startWord endWord, hmain⟩
  rw [hmain]
  exact List.take_left dict _

/-- C10 witness: with dictionary `[dot]` and query hot to xyz, both words
are appended in order after the untouched dictionary. -/
theorem augmentDictionary_spec_witness :
    (augmentDictionary [dot] hot xyz).take 1 = [dot] ∧
    hot ∈ augmentDictionary [dot] hot xyz ∧
    xyz ∈ augmentDictionary [dot] hot xyz ∧
    augmentDictionary [dot] hot xyz =
      [dot] ++ ((if hot ∈ [dot] then [] else [hot]) ++
        (if xyz ∈ [dot] ++ (if hot ∈ [dot] then [] else [hot]) then []
          else [xyz])) :=
  augmentDictionary_spec [dot] hot xyz
